import Mathlib

/-!
An RPN evaluator (`src/src/rpn.cpp`) and its specification: a shallow
embedding of `rpn.cpp`.

* `std::string` is `String`, a `double` is an exact rational (`ℚ`): rounding,
  infinities and NaN are outside the model.
* `std::stack<T>` is a `List T` whose head is the top of the stack;
  `std::deque<std::string>` is a `List String` whose head is the front.
* `std::map<std::string, double>` is a function `String → Option ℚ`.
* The exceptions `std::invalid_argument` and `std::out_of_range`, and undefined
  behaviour (an out-of-range conversion to `int`, overflow of an `int`
  counter), are the constructors of `Fault`.
* The process-wide variables of the file are the fields of `Session`; a call
  of `evaluate_rpn` takes a session and gives back the session it leaves
  behind, also when it throws.
* The C library (`std::sqrt`, `std::sin`, ..., `std::to_string(double)`, the
  random engine) is a parameter, the structure `Host`.
* `evaluate_rpn` reads a numeral as its exact value, whatever its size;
  `evaluate_rpn_double` is the same evaluator with the `std::out_of_range`
  that `std::stod` throws on a numeral outside the range of a `double`. The
  two agree on an expression whose numerals are all within range
  (`evaluate_rpn_double_eq`).
-/

namespace Rpn

/-! ## Characters and strings -/

/-- The test `std::isspace` of the classic locale, which `operator>>` uses to
delimit a word: space, `\t`, `\n`, `\v`, `\f`, `\r`. -/
def isspace (c : Char) : Bool :=
  c = ' ' || c = '\t' || c = '\n' || c = Char.ofNat 11 || c = Char.ofNat 12 || c = '\r'

/-- The test `std::isdigit`: one of `0` ... `9`. -/
def isdigit (c : Char) : Bool :=
  decide (48 ≤ c.toNat) && decide (c.toNat ≤ 57)

/-- One `iss >> token`: skip the leading whitespace, then take characters up
to the next whitespace or the end. `none` when the stream is exhausted (the
extraction fails and the `while` loop ends); otherwise the word read and the
rest of the stream. -/
def extract (stream : List Char) : Option (List Char × List Char) :=
  match stream.dropWhile isspace with
  | [] => none
  | c :: rest => some ((c :: rest).span (fun x => !isspace x))

/-- The loop `while (iss >> token) tokens.push_back(token)`. Every successful
extraction consumes at least one character, so `fuel` above the length of the
stream is never used up (`read_tokens_fuel`). -/
def read_tokens : Nat → List Char → List String
  | 0, _ => []
  | fuel + 1, stream =>
    match extract stream with
    | none => []
    | some (token, rest) => String.mk token :: read_tokens fuel rest

/-- The member `std::string::find(c)`: the position of the first `c`, or
`npos` (`none`). -/
def find (c : Char) : List Char → Option Nat
  | [] => none
  | x :: xs => if x = c then some 0 else (find c xs).map (fun pos => pos + 1)

/-- Lines 34-37: `find('#')` followed by `substr(0, comment_pos)`, or the
whole text when there is no `#`. -/
def strip_comment (expression : List Char) : List Char :=
  match find '#' expression with
  | some comment_pos => expression.take comment_pos
  | none => expression

/-- The function `tokenize` (lines 28-46). -/
def tokenize (expression : String) : List String :=
  let cleaned_expression := strip_comment expression.data
  read_tokens (cleaned_expression.length + 1) cleaned_expression

/-- The `for` loop of `is_number` (lines 57-66), from the current position,
with the flag `has_dot`. -/
def is_number_loop : List Char → Bool → Bool
  | [], _ => true
  | c :: cs, has_dot =>
    if c = '.' then
      if has_dot then false else is_number_loop cs true
    else if !isdigit c then false
    else is_number_loop cs has_dot

/-- The function `is_number` (lines 48-67). -/
def is_number (s : String) : Bool :=
  match s.data with
  | [] => false
  | c :: cs =>
    if c = '-' || c = '+' then
      if cs = [] then false else is_number_loop cs false
    else is_number_loop (c :: cs) false

/-! ## Numbers -/

/-- What the evaluator can end with instead of a value: an exception
`std::invalid_argument(what)`, the exception `std::out_of_range(what)` of
`std::stod`, or undefined behaviour of the C++ program. -/
inductive Fault where
  | invalid_argument (what : String)
  | out_of_range (what : String)
  | undefined (what : String)
  deriving DecidableEq, Repr

/-- The largest `int` (32 bits). -/
def INT_MAX : Int := 2147483647

/-- The smallest `int` (32 bits). -/
def INT_MIN : Int := -2147483648

/-- The conversion `static_cast<int>(a)` of a `double`: the fractional part is
discarded (truncation toward zero); the behaviour is undefined (`none`) when
the truncated value is not an `int`. -/
def static_cast_int (a : ℚ) : Option Int :=
  let t := Int.tdiv a.num (a.den : Int)
  if INT_MIN ≤ t ∧ t ≤ INT_MAX then some t else none

/-- The character of a decimal digit. -/
def digit_char (d : Nat) : Char := Char.ofNat (48 + d)

/-- The value of a decimal digit character. -/
def digit_value (c : Char) : Nat := c.toNat - 48

/-- The decimal digits of `n`, most significant first; `fuel` above `n` is
enough. -/
def nat_digits : Nat → Nat → List Char
  | 0, _ => []
  | fuel + 1, n =>
    if n < 10 then [digit_char n]
    else nat_digits fuel (n / 10) ++ [digit_char (n % 10)]

/-- The function `std::to_string(int)`: the decimal digits, after a `-` for a
negative number. -/
def to_string (n : Int) : String :=
  String.mk
    (if n < 0 then '-' :: nat_digits (n.natAbs + 1) n.natAbs
     else nat_digits (n.natAbs + 1) n.natAbs)

/-- The number a run of decimal digits denotes. -/
def digits_value (cs : List Char) : Nat :=
  cs.foldl (fun acc c => 10 * acc + digit_value c) 0

/-- The function `std::stod` on the strings `is_number` accepts (an optional
sign, digits, at most one `.`), the only ones `evaluate_rpn` passes to it: the
exact value of the decimal numeral, and the exception `invalid_argument("stod")`
of the library when the text holds no digit. This is `std::stod` for a `double`
read as an exact number of unbounded range; `stod_double` adds the exception
`out_of_range` the library throws on a numeral outside the range of a
`double`. -/
def stod (s : String) : Except Fault ℚ :=
  let cs := s.data
  let neg := cs.head? = some '-'
  let body := if cs.head? = some '-' ∨ cs.head? = some '+' then cs.tail else cs
  let int_part := body.takeWhile isdigit
  let frac_part :=
    match body.dropWhile isdigit with
    | '.' :: rest => rest.takeWhile isdigit
    | _ => []
  if int_part = [] ∧ frac_part = [] then
    .error (.invalid_argument "stod")
  else
    let m : ℚ := (digits_value int_part : ℚ)
      + (digits_value frac_part : ℚ) / (10 : ℚ) ^ frac_part.length
    .ok (if neg then -m else m)

/-! ## The session -/

/-- The C library as the evaluator uses it. The functions of `<cmath>` that
have no exact rational value, `std::to_string(double)`, the draws `dis(gen)`
of the random engine (the `k`-th draw of the process), and whether `strtod`
reports `ERANGE` for a value too small for a normalized `double` (the C
standard leaves it to the implementation). -/
structure Host where
  sqrt : ℚ → ℚ
  sin : ℚ → ℚ
  cos : ℚ → ℚ
  tan : ℚ → ℚ
  asin : ℚ → ℚ
  acos : ℚ → ℚ
  atan : ℚ → ℚ
  log : ℚ → ℚ
  log10 : ℚ → ℚ
  pow : ℚ → ℚ → ℚ
  fmod : ℚ → ℚ → ℚ
  to_string_double : ℚ → String
  dis : Nat → ℚ
  underflow_erange : ℚ → Bool

/-- The process-wide state of `rpn.cpp` (lines 16-26): the map `variables`
(the field `vars`: `variables` is a reserved word here), `undo_stack`,
`redo_stack`, `history_deque`, and the number of draws taken from `gen`. The value stack is not part of it: it is a local variable of
`evaluate_rpn` (line 84). -/
structure Session where
  vars : String → Option ℚ
  undo_stack : List (List ℚ)
  redo_stack : List (List ℚ)
  history_deque : List String
  gen : Nat

/-- The state of a process that has not called `evaluate_rpn` yet. -/
def Session.fresh : Session :=
  { vars := fun _ => none, undo_stack := [], redo_stack := [],
    history_deque := [], gen := 0 }

/-- The capacity of the history (line 20). -/
def HISTORY_SIZE : Nat := 10

/-- The constant `PI` (line 22). -/
def PI : ℚ := 314159265358979323846 / 100000000000000000000

/-- The constant `E` (line 23). -/
def E : ℚ := 271828182845904523536 / 100000000000000000000

/-- The function `save_state` (lines 69-74). -/
def save_state (stack : List ℚ) (s : Session) : Session :=
  { s with undo_stack := stack :: s.undo_stack, redo_stack := [] }

/-- The function `add_to_history` (lines 76-81). -/
def add_to_history (operation : String) (s : Session) : Session :=
  let pushed := operation :: s.history_deque
  { s with history_deque :=
      if pushed.length > HISTORY_SIZE then pushed.dropLast else pushed }

/-- The read `variables[name]`: the value of the variable, and `0.0`, the value
`operator[]` creates, for a name that is not a key (the evaluator reads a name
only after `find` has found it). -/
def variable_value (s : Session) (name : String) : ℚ := (s.vars name).getD 0

/-- The assignment `variables[var_name] = value`. -/
def assign (var_name : String) (value : ℚ) (s : Session) : Session :=
  { s with vars := fun k => if k = var_name then some value else s.vars k }

/-- The loop of the factorial (lines 176-178), `for (int i = 2; i <= n; ++i)
result *= i`, from the current `i` and `result`. Incrementing `i = INT_MAX`
overflows an `int`: undefined behaviour. `fuel` counts the iterations left;
`n` of them are enough (`factorial_loop_spec`). -/
def factorial_loop (n : Int) : Nat → Int → ℚ → Except Fault ℚ
  | 0, _, result => .ok result
  | fuel + 1, i, result =>
    if i ≤ n then
      if i = INT_MAX then .error (.undefined "signed overflow of the loop counter")
      else factorial_loop n fuel (i + 1) (result * (i : ℚ))
    else .ok result

/-- Throwing `std::invalid_argument(what)`: the session stays as it is. -/
def throw_invalid {α : Type} (what : String) (s : Session) : Except Fault α × Session :=
  (.error (.invalid_argument what), s)

/-- A conversion to `int` with undefined behaviour. -/
def undefined_cast {α : Type} (s : Session) : Except Fault α × Session :=
  (.error (.undefined "conversion to int out of range"), s)

/-- The functions `std::floor`, `std::ceil` and `std::round` (halves away from
zero) have exact rational values. -/
def c_round (a : ℚ) : ℚ :=
  if 0 ≤ a then ((Rat.floor (a + 1 / 2) : Int) : ℚ) else -((Rat.floor (-a + 1 / 2) : Int) : ℚ)

/-- The branch of the binary operators (lines 181-212); the tokens `<` and
`>` are listed here too. -/
def binary_branch (H : Host) (token : String) (stack : List ℚ) (s : Session) :
    Except Fault (List ℚ) × Session :=
  match stack with
  | b :: a :: rest =>
    if token = "+" then (.ok ((a + b) :: rest), add_to_history token s)
    else if token = "-" then (.ok ((a - b) :: rest), add_to_history token s)
    else if token = "*" then (.ok ((a * b) :: rest), add_to_history token s)
    else if token = "/" then
      if b = 0 then throw_invalid "Division by zero" s
      else (.ok ((a / b) :: rest), add_to_history token s)
    else if token = "^" then (.ok (H.pow a b :: rest), add_to_history token s)
    else if token = "%" then (.ok (H.fmod a b :: rest), add_to_history token s)
    else if token = "min" then (.ok (min a b :: rest), add_to_history token s)
    else if token = "max" then (.ok (max a b :: rest), add_to_history token s)
    else if token = "==" then
      (.ok ((if a = b then 1 else 0) :: rest), add_to_history token s)
    else if token = "!=" then
      (.ok ((if a ≠ b then 1 else 0) :: rest), add_to_history token s)
    else if token = "<" then
      (.ok ((if a < b then 1 else 0) :: rest), add_to_history token s)
    else if token = ">" then
      (.ok ((if a > b then 1 else 0) :: rest), add_to_history token s)
    else if token = "<=" then
      (.ok ((if a ≤ b then 1 else 0) :: rest), add_to_history token s)
    else
      (.ok ((if a ≥ b then 1 else 0) :: rest), add_to_history token s)
  | _ => throw_invalid ("Not enough operands for operator '" ++ token ++ "'") s

/-- The branch of the one-argument functions (lines 213-251). -/
def function_branch (H : Host) (token : String) (stack : List ℚ) (s : Session) :
    Except Fault (List ℚ) × Session :=
  match stack with
  | [] => throw_invalid "Stack is empty" s
  | a :: rest =>
    if token = "sqrt" then
      if a < 0 then throw_invalid "Square root of negative number" s
      else (.ok (H.sqrt a :: rest), add_to_history token s)
    else if token = "abs" then (.ok (|a| :: rest), add_to_history token s)
    else if token = "sin" then (.ok (H.sin a :: rest), add_to_history token s)
    else if token = "cos" then (.ok (H.cos a :: rest), add_to_history token s)
    else if token = "tan" then (.ok (H.tan a :: rest), add_to_history token s)
    else if token = "asin" then
      if a < -1 ∨ a > 1 then throw_invalid "asin argument out of range" s
      else (.ok (H.asin a :: rest), add_to_history token s)
    else if token = "acos" then
      if a < -1 ∨ a > 1 then throw_invalid "acos argument out of range" s
      else (.ok (H.acos a :: rest), add_to_history token s)
    else if token = "atan" then (.ok (H.atan a :: rest), add_to_history token s)
    else if token = "ln" then
      if a ≤ 0 then throw_invalid "ln of non-positive number" s
      else (.ok (H.log a :: rest), add_to_history token s)
    else if token = "log" then
      if a ≤ 0 then throw_invalid "log of non-positive number" s
      else (.ok (H.log10 a :: rest), add_to_history token s)
    else if token = "floor" then
      (.ok (((Rat.floor a : Int) : ℚ) :: rest), add_to_history token s)
    else if token = "ceil" then
      (.ok (((Rat.ceil a : Int) : ℚ) :: rest), add_to_history token s)
    else if token = "round" then (.ok (c_round a :: rest), add_to_history token s)
    else (.ok (a :: rest), add_to_history token s)

/-- The last `else` of the dispatch (lines 152-262): the tokens `~`, `++`,
`--`, `!`, the binary operators, the functions, the inspection commands, and
the error for any other token. -/
def operator_branch (H : Host) (token : String) (stack : List ℚ) (s : Session) :
    Except Fault (List ℚ) × Session :=
  if token = "~" then
    match stack with
    | [] => throw_invalid "Stack is empty" s
    | a :: rest => (.ok (-a :: rest), add_to_history "~" s)
  else if token = "++" then
    match stack with
    | [] => throw_invalid "Stack is empty" s
    | a :: rest => (.ok ((a + 1) :: rest), add_to_history "++" s)
  else if token = "--" then
    match stack with
    | [] => throw_invalid "Stack is empty" s
    | a :: rest => (.ok ((a - 1) :: rest), add_to_history "--" s)
  else if token = "!" then
    match stack with
    | [] => throw_invalid "Stack is empty" s
    | a :: rest =>
      if a < 0 then throw_invalid "Factorial requires non-negative integer" s
      else
        match static_cast_int a with
        | none => undefined_cast s
        | some n =>
          if a ≠ (n : ℚ) then throw_invalid "Factorial requires non-negative integer" s
          else
            match factorial_loop n n.toNat 2 1 with
            | .error f => (.error f, s)
            | .ok result => (.ok (result :: rest), add_to_history "!" s)
  else if token = "+" ∨ token = "-" ∨ token = "*" ∨ token = "/" ∨ token = "^"
      ∨ token = "%" ∨ token = "min" ∨ token = "max" ∨ token = "==" ∨ token = "!="
      ∨ token = "<" ∨ token = ">" ∨ token = "<=" ∨ token = ">=" then
    binary_branch H token stack s
  else if token = "sqrt" ∨ token = "abs" ∨ token = "sin" ∨ token = "cos"
      ∨ token = "tan" ∨ token = "asin" ∨ token = "acos" ∨ token = "atan"
      ∨ token = "ln" ∨ token = "log" ∨ token = "floor" ∨ token = "ceil"
      ∨ token = "round" ∨ token = "bin" ∨ token = "hex" then
    function_branch H token stack s
  else if token = "stack" then (.ok stack, add_to_history "stack" s)
  else if token = "vars" then (.ok stack, add_to_history "vars" s)
  else if token = "history" then (.ok stack, add_to_history "history" s)
  else throw_invalid ("Invalid operator or function: '" ++ token ++ "'") s

/-- One iteration of the loop over the tokens (lines 90-263): the stack after
the token, or the fault it ends with, and the session it leaves. -/
def step (H : Host) (token : String) (stack : List ℚ) (s : Session) :
    Except Fault (List ℚ) × Session :=
  if is_number token then
    match stod token with
    | .error f => (.error f, s)
    | .ok v => (.ok (v :: stack), add_to_history ("push " ++ token) s)
  else if token = "pi" then (.ok (PI :: stack), add_to_history "push pi" s)
  else if token = "e" then (.ok (E :: stack), add_to_history "push e" s)
  else if (s.vars token).isSome then
    (.ok (variable_value s token :: stack), add_to_history ("recall " ++ token) s)
  else if token = "store" ∨ token = ">" then
    match stack with
    | value :: key :: rest =>
      match static_cast_int key with
      | none => undefined_cast s
      | some n =>
        let var_name := to_string n
        (.ok rest, add_to_history
          ("store " ++ var_name ++ " = " ++ H.to_string_double value)
          (assign var_name value s))
    | _ => throw_invalid "Not enough operands for store" s
  else if token = "recall" ∨ token = "<" then
    match stack with
    | [] => throw_invalid "No variable name specified" s
    | key :: rest =>
      match static_cast_int key with
      | none => undefined_cast s
      | some n =>
        let var_name := to_string n
        if (s.vars var_name).isSome then
          (.ok (variable_value s var_name :: rest), add_to_history ("recall " ++ var_name) s)
        else throw_invalid ("Variable '" ++ var_name ++ "' not found") s
  else if token = "rand" then
    (.ok (H.dis s.gen :: stack), add_to_history "rand" { s with gen := s.gen + 1 })
  else if token = "dup" then
    match stack with
    | [] => throw_invalid "Stack is empty" s
    | top :: rest => (.ok (top :: top :: rest), add_to_history "dup" s)
  else if token = "swap" then
    match stack with
    | a :: b :: rest => (.ok (b :: a :: rest), add_to_history "swap" s)
    | _ => throw_invalid "Not enough elements to swap" s
  else if token = "drop" then
    match stack with
    | [] => throw_invalid "Stack is empty" s
    | _ :: rest => (.ok rest, add_to_history "drop" s)
  else if token = "clear" then (.ok [], add_to_history "clear" s)
  else if token = "undo" then
    match s.undo_stack with
    | [] => throw_invalid "Nothing to undo" s
    | saved :: older =>
      (.ok saved, add_to_history "undo"
        { s with redo_stack := stack :: s.redo_stack, undo_stack := older })
  else if token = "redo" then
    match s.redo_stack with
    | [] => throw_invalid "Nothing to redo" s
    | saved :: older =>
      (.ok saved, add_to_history "redo"
        { s with undo_stack := stack :: s.undo_stack, redo_stack := older })
  else operator_branch H token stack s

/-- The loop `for (const auto& token : tokens)`: the stack when every token is
processed, or the fault of the first token that fails, with the session as the
tokens before it left it. -/
def run_tokens (H : Host) : List String → List ℚ → Session →
    Except Fault (List ℚ) × Session
  | [], stack, s => (.ok stack, s)
  | token :: rest, stack, s =>
    match step H token stack s with
    | (.error f, s1) => (.error f, s1)
    | (.ok stack1, s1) => run_tokens H rest stack1 s1

/-- The condition of the check after the loop (lines 265-266). -/
def too_many_operands (tokens : List String) (stack : List ℚ) : Bool :=
  decide (stack.length ≠ 1) && !tokens.isEmpty && decide (tokens.getLast? ≠ some "stack")
    && decide (tokens.getLast? ≠ some "vars") && decide (tokens.getLast? ≠ some "history")

/-- The end of `evaluate_rpn` (lines 265-270), from the stack the loop left. -/
def finish (tokens : List String) (stack : List ℚ) : Except Fault ℚ :=
  if too_many_operands tokens stack then
    .error (.invalid_argument "Invalid expression: too many operands")
  else .ok (stack.headD 0)

/-- The function `evaluate_rpn` (lines 83-271): the value returned or the
fault, and the session after the call. The value stack starts empty at every
call. -/
def evaluate_rpn (H : Host) (s : Session) (expression : String) :
    Except Fault ℚ × Session :=
  let tokens := tokenize expression
  match run_tokens H tokens [] (save_state [] s) with
  | (.error f, s1) => (.error f, s1)
  | (.ok stack, s1) => (finish tokens stack, s1)

/-- A host for running examples: every library function is the identity or a
constant. -/
def Host.sample : Host :=
  { sqrt := id, sin := id, cos := id, tan := id, asin := id, acos := id, atan := id,
    log := id, log10 := id, pow := fun a _ => a, fmod := fun a _ => a,
    to_string_double := fun _ => "0.000000", dis := fun _ => 0,
    underflow_erange := fun _ => true }

/-! ## The range of a `double`

`std::stod` throws `std::out_of_range` when `strtod` reports `ERANGE`. The
evaluator below is `evaluate_rpn` with that exception at line 92; the value of
a numeral within range stays its exact value. -/

/-- The least magnitude that rounds to infinity: `DBL_MAX` plus half a unit in
the last place, `2^1024 - 2^970`. -/
def DBL_ROUND_INF : ℚ := 2 ^ 1024 - 2 ^ 970

/-- The smallest positive normalized `double`, `2^-1022`. -/
def DBL_MIN : ℚ := 1 / 2 ^ 1022

/-- The function `std::stod` with the range of a `double`: `out_of_range` for a
numeral that overflows, and for a non-zero numeral below `DBL_MIN` when the
library reports `ERANGE` on underflow. -/
def stod_double (H : Host) (s : String) : Except Fault ℚ :=
  match stod s with
  | .error f => .error f
  | .ok v =>
    if DBL_ROUND_INF ≤ |v| then .error (.out_of_range "stod")
    else if v ≠ 0 ∧ |v| < DBL_MIN ∧ H.underflow_erange v = true then
      .error (.out_of_range "stod")
    else .ok v

/-- One iteration of the loop over the tokens with the range of a `double`:
lines 91-93 with `stod_double`; a token that is not a number is handled by the
other branches, those of `step`. -/
def step_double (H : Host) (token : String) (stack : List ℚ) (s : Session) :
    Except Fault (List ℚ) × Session :=
  if is_number token then
    match stod_double H token with
    | .error f => (.error f, s)
    | .ok v => (.ok (v :: stack), add_to_history ("push " ++ token) s)
  else step H token stack s

/-- The loop over the tokens with the range of a `double`. -/
def run_tokens_double (H : Host) : List String → List ℚ → Session →
    Except Fault (List ℚ) × Session
  | [], stack, s => (.ok stack, s)
  | token :: rest, stack, s =>
    match step_double H token stack s with
    | (.error f, s1) => (.error f, s1)
    | (.ok stack1, s1) => run_tokens_double H rest stack1 s1

/-- The function `evaluate_rpn` with the range of a `double`. -/
def evaluate_rpn_double (H : Host) (s : Session) (expression : String) :
    Except Fault ℚ × Session :=
  let tokens := tokenize expression
  match run_tokens_double H tokens [] (save_state [] s) with
  | (.error f, s1) => (.error f, s1)
  | (.ok stack, s1) => (finish tokens stack, s1)

/-- The maximal runs of non-whitespace characters of a text, in order: the
text is split at every whitespace character and the empty pieces are dropped. -/
def runs (cs : List Char) : List String :=
  ((cs.splitOnP isspace).filter (fun r => !r.isEmpty)).map String.mk

/-- The characters of the tokens joined by single spaces. -/
def unwords_chars : List String → List Char
  | [] => []
  | [t] => t.data
  | t :: u :: ts => t.data ++ ' ' :: unwords_chars (u :: ts)

/-- The tokens joined by single spaces. -/
def unwords (tokens : List String) : String := String.mk (unwords_chars tokens)

/-- A token as the specification defines it: not empty, without whitespace and
without `#`. -/
def CleanToken (t : String) : Prop :=
  t.data ≠ [] ∧ ∀ c ∈ t.data, isspace c = false ∧ c ≠ '#'



/-- The numeric-literal grammar of the specification: an optional leading `+`
or `-`, then decimal digits with at most one `.`, at least one digit being
present. -/
def NumericLiteral (s : String) : Prop :=
  ∃ sign body : List Char, s.data = sign ++ body
    ∧ (sign = [] ∨ sign = ['+'] ∨ sign = ['-'])
    ∧ (∀ c ∈ body, isdigit c = true ∨ c = '.')
    ∧ body.count '.' ≤ 1
    ∧ ∃ c ∈ body, isdigit c = true

/-- The binary operators of an arithmetic expression. -/
inductive Op where
  | plus
  | minus
  | times
  deriving DecidableEq, Repr

/-- The token of an operator. -/
def Op.token : Op → String
  | .plus => "+"
  | .minus => "-"
  | .times => "*"

/-- The operator applied as (left operand) op (right operand). -/
def Op.apply : Op → ℚ → ℚ → ℚ
  | .plus, a, b => a + b
  | .minus, a, b => a - b
  | .times, a, b => a * b

/-- The sign written before a literal, if any. -/
inductive Sign where
  | absent
  | plus
  | minus
  deriving DecidableEq, Repr

/-- The characters of a sign. -/
def Sign.chars : Sign → List Char
  | .absent => []
  | .plus => ['+']
  | .minus => ['-']

/-- An arithmetic expression tree: a leaf is a decimal integer literal, an
optional sign and one or more decimal digits `d ds`, most significant first;
an inner node is a binary operator with its left and right operands. -/
inductive Expr where
  | lit (sign : Sign) (d : Fin 10) (ds : List (Fin 10))
  | node (op : Op) (left right : Expr)
  deriving Repr

/-- The text of a literal. -/
def lit_text (sign : Sign) (d : Fin 10) (ds : List (Fin 10)) : String :=
  String.mk (sign.chars ++ (d :: ds).map (fun x => digit_char x.val))

/-- The integer a literal denotes: its digits read in base ten (`Nat.ofDigits`
takes the least significant digit first), negated after a `-`. -/
def lit_value (sign : Sign) (d : Fin 10) (ds : List (Fin 10)) : ℚ :=
  let n : Nat := Nat.ofDigits 10 ((d :: ds).reverse.map (fun x => x.val))
  if sign = .minus then -(n : ℚ) else (n : ℚ)

/-- The value of an expression tree. -/
def Expr.value : Expr → ℚ
  | .lit sign d ds => lit_value sign d ds
  | .node op l r => op.apply l.value r.value

/-- The tokens of an expression tree in postfix order: left operand, right
operand, operator. -/
def Expr.tokens : Expr → List String
  | .lit sign d ds => [lit_text sign d ds]
  | .node op l r => l.tokens ++ r.tokens ++ [op.token]

/-- The session states a process can be in: the state before the first call,
and the state any call of `evaluate_rpn`, returning or throwing, leaves behind. -/
inductive Reachable (H : Host) : Session → Prop where
  | fresh : Reachable H Session.fresh
  | call (s : Session) (expression : String) :
      Reachable H s → Reachable H (evaluate_rpn H s expression).2

/-- An outcome of one token that leaves the session `s` as it is but for one
entry added to the history: a fault with the session untouched, or a new stack
with one operation recorded. -/
def Plain (r : Except Fault (List ℚ) × Session) (s : Session) : Prop :=
  (∃ f, r = (.error f, s)) ∨ (∃ st op, r = (.ok st, add_to_history op s))

/-- What one token can do to the session, by the branch that handles it: a
plain outcome; an assignment by `store` or `>`; a draw by `rand`; an `undo`;
a `redo`. -/
def StepEffect (token : String) (stack : List ℚ) (s : Session)
    (r : Except Fault (List ℚ) × Session) : Prop :=
  Plain r s
  ∨ (∃ value key rest n op, (token = "store" ∨ token = ">")
      ∧ (s.vars token).isSome = false ∧ stack = value :: key :: rest
      ∧ static_cast_int key = some n
      ∧ r = (.ok rest, add_to_history op (assign (to_string n) value s)))
  ∨ (∃ st op, r = (.ok st, add_to_history op { s with gen := s.gen + 1 }))
  ∨ (∃ saved older op, token = "undo" ∧ s.undo_stack = saved :: older
      ∧ r = (.ok saved, add_to_history op
          { s with redo_stack := stack :: s.redo_stack, undo_stack := older }))
  ∨ (∃ saved older op, token = "redo" ∧ s.redo_stack = saved :: older
      ∧ r = (.ok saved, add_to_history op
          { s with undo_stack := stack :: s.undo_stack, redo_stack := older }))

/-! ## Base formatting -/

/-- The loop of `number_to_bin` (lines 316-319): `while (n > 0)`, the digit of
`n % 2` is put in front of `result` and `n` is halved. `n / 2` and `n % 2` of
C++ truncate toward zero. `fuel` counts the iterations left; `n` of them are
enough (`number_to_bin_loop_spec`). -/
def number_to_bin_loop : Nat → Int → List Char → List Char
  | 0, _, result => result
  | fuel + 1, n, result =>
    if n > 0 then
      number_to_bin_loop fuel (Int.tdiv n 2)
        ((if Int.tmod n 2 = 0 then '0' else '1') :: result)
    else result

/-- The function `number_to_bin` (lines 311-321); `none` when the conversion of
`num` to `int` is undefined. -/
def number_to_bin (num : ℚ) : Option String :=
  match static_cast_int num with
  | none => none
  | some n =>
    if n = 0 then some "0"
    else some (String.mk (number_to_bin_loop n.toNat n []))

/-- The table `digits` of `number_to_hex` (line 328). -/
def hex_digits : List Char := "0123456789ABCDEF".data

/-- The loop of `number_to_hex` (lines 330-333): `while (n > 0)`, the character
`digits[n % 16]` is put in front of `result` and `n` is divided by 16. -/
def number_to_hex_loop : Nat → Int → List Char → List Char
  | 0, _, result => result
  | fuel + 1, n, result =>
    if n > 0 then
      number_to_hex_loop fuel (Int.tdiv n 16)
        (hex_digits.getD (Int.tmod n 16).toNat '0' :: result)
    else result

/-- The function `number_to_hex` (lines 323-335); `none` when the conversion of
`num` to `int` is undefined. -/
def number_to_hex (num : ℚ) : Option String :=
  match static_cast_int num with
  | none => none
  | some n =>
    if n = 0 then some "0"
    else some (String.mk (number_to_hex_loop n.toNat n []))

/-- The character of a digit below 16: `0`-`9`, then the capitals `A`-`F`. -/
def hex_char (d : Nat) : Char :=
  if d < 10 then Char.ofNat (48 + d) else Char.ofNat (55 + d)

/-- The canonical rendering of `n` in base `b`: the digits of `n`
(`Nat.digits`, least significant first, none for 0), most significant first. -/
def base_text (b n : Nat) : String :=
  String.mk ((Nat.digits b n).reverse.map hex_char)

/-- The value of a digit character `0`-`9`, `A`-`F`. -/
def char_digit (c : Char) : Nat :=
  if isdigit c then c.toNat - 48 else c.toNat - 55

/-- The number a text denotes in base `b`, read most significant digit first. -/
def read_base (b : Nat) (s : String) : Nat :=
  Nat.ofDigits b (s.data.reverse.map char_digit)

/-- The decimal rendering of an `int`. -/
def IntKey (k : String) : Prop :=
  ∃ n : Int, INT_MIN ≤ n ∧ n ≤ INT_MAX ∧ k = to_string n

/-- The tokens the dispatch knows as operators, functions and commands. -/
def operator_names : List String :=
  ["pi", "e", "store", ">", "recall", "<", "rand", "dup", "swap", "drop", "clear", "undo",
   "redo", "~", "++", "--", "!", "+", "-", "*", "/", "^", "%", "min", "max", "==", "!=",
   "<=", ">=", "sqrt", "abs", "sin", "cos", "tan", "asin", "acos", "atan", "ln", "log",
   "floor", "ceil", "round", "bin", "hex", "stack", "vars", "history"]

/-! ## The evaluator with explicit `top()` and `pop()`

A second embedding of `evaluate_rpn`, statement by statement: every `top()`
and `pop()` of the value stack, the undo log and the redo log is a call of
`stack_top` or `stack_pop`, which give `none` on an empty container (undefined
behaviour in C++). The result of a function is `none` when such a call was
executed. -/

/-- The member `top()`: `none` on an empty container. -/
def stack_top {α : Type} (st : List α) : Option α := st.head?

/-- The member `pop()`: `none` on an empty container. -/
def stack_pop {α : Type} (st : List α) : Option (List α) :=
  match st with
  | [] => none
  | _ :: rest => some rest

/-- The loop `while (!st.empty()) st.pop()` (lines 71-73 and 138); `fuel` counts
the iterations left, the size of the container is enough. -/
def pop_all {α : Type} : Nat → List α → Option (List α)
  | 0, st => some st
  | fuel + 1, st =>
    if st.isEmpty then some st
    else (stack_pop st).bind (pop_all fuel)

/-- The function `save_state` with its loop of `pop()`. -/
def save_state_checked (stack : List ℚ) (s : Session) : Option Session :=
  (pop_all s.redo_stack.length s.redo_stack).map
    (fun emptied => { s with undo_stack := stack :: s.undo_stack, redo_stack := emptied })

/-- Lines 192-212: the result of a binary operator on the operands `a` and `b`
popped from the stack. -/
def binary_result (H : Host) (token : String) (a b : ℚ) (rest : List ℚ) (s : Session) :
    Except Fault (List ℚ) × Session :=
  if token = "+" then (.ok ((a + b) :: rest), add_to_history token s)
  else if token = "-" then (.ok ((a - b) :: rest), add_to_history token s)
  else if token = "*" then (.ok ((a * b) :: rest), add_to_history token s)
  else if token = "/" then
    if b = 0 then throw_invalid "Division by zero" s
    else (.ok ((a / b) :: rest), add_to_history token s)
  else if token = "^" then (.ok (H.pow a b :: rest), add_to_history token s)
  else if token = "%" then (.ok (H.fmod a b :: rest), add_to_history token s)
  else if token = "min" then (.ok (min a b :: rest), add_to_history token s)
  else if token = "max" then (.ok (max a b :: rest), add_to_history token s)
  else if token = "==" then
    (.ok ((if a = b then 1 else 0) :: rest), add_to_history token s)
  else if token = "!=" then
    (.ok ((if a ≠ b then 1 else 0) :: rest), add_to_history token s)
  else if token = "<" then
    (.ok ((if a < b then 1 else 0) :: rest), add_to_history token s)
  else if token = ">" then
    (.ok ((if a > b then 1 else 0) :: rest), add_to_history token s)
  else if token = "<=" then
    (.ok ((if a ≤ b then 1 else 0) :: rest), add_to_history token s)
  else
    (.ok ((if a ≥ b then 1 else 0) :: rest), add_to_history token s)

/-- Lines 220-251: the result of a function on the operand `a` popped from the
stack. -/
def function_result (H : Host) (token : String) (a : ℚ) (rest : List ℚ) (s : Session) :
    Except Fault (List ℚ) × Session :=
  if token = "sqrt" then
    if a < 0 then throw_invalid "Square root of negative number" s
    else (.ok (H.sqrt a :: rest), add_to_history token s)
  else if token = "abs" then (.ok (|a| :: rest), add_to_history token s)
  else if token = "sin" then (.ok (H.sin a :: rest), add_to_history token s)
  else if token = "cos" then (.ok (H.cos a :: rest), add_to_history token s)
  else if token = "tan" then (.ok (H.tan a :: rest), add_to_history token s)
  else if token = "asin" then
    if a < -1 ∨ a > 1 then throw_invalid "asin argument out of range" s
    else (.ok (H.asin a :: rest), add_to_history token s)
  else if token = "acos" then
    if a < -1 ∨ a > 1 then throw_invalid "acos argument out of range" s
    else (.ok (H.acos a :: rest), add_to_history token s)
  else if token = "atan" then (.ok (H.atan a :: rest), add_to_history token s)
  else if token = "ln" then
    if a ≤ 0 then throw_invalid "ln of non-positive number" s
    else (.ok (H.log a :: rest), add_to_history token s)
  else if token = "log" then
    if a ≤ 0 then throw_invalid "log of non-positive number" s
    else (.ok (H.log10 a :: rest), add_to_history token s)
  else if token = "floor" then
    (.ok (((Rat.floor a : Int) : ℚ) :: rest), add_to_history token s)
  else if token = "ceil" then
    (.ok (((Rat.ceil a : Int) : ℚ) :: rest), add_to_history token s)
  else if token = "round" then (.ok (c_round a :: rest), add_to_history token s)
  else (.ok (a :: rest), add_to_history token s)

/-- Lines 171-180: the factorial of the operand `a` popped from the stack. -/
def factorial_result (a : ℚ) (rest : List ℚ) (s : Session) :
    Except Fault (List ℚ) × Session :=
  if a < 0 then throw_invalid "Factorial requires non-negative integer" s
  else
    match static_cast_int a with
    | none => undefined_cast s
    | some n =>
      if a ≠ (n : ℚ) then throw_invalid "Factorial requires non-negative integer" s
      else
        match factorial_loop n n.toNat 2 1 with
        | .error f => (.error f, s)
        | .ok result => (.ok (result :: rest), add_to_history "!" s)

/-- The last `else` of the dispatch (lines 152-262) with explicit `top()` and
`pop()`. -/
def operator_branch_checked (H : Host) (token : String) (stack : List ℚ) (s : Session) :
    Option (Except Fault (List ℚ) × Session) :=
  if token = "~" then
    if stack.isEmpty then some (throw_invalid "Stack is empty" s)
    else do
      let a ← stack_top stack
      let stack1 ← stack_pop stack
      some (.ok (-a :: stack1), add_to_history "~" s)
  else if token = "++" then
    if stack.isEmpty then some (throw_invalid "Stack is empty" s)
    else do
      let a ← stack_top stack
      let stack1 ← stack_pop stack
      some (.ok ((a + 1) :: stack1), add_to_history "++" s)
  else if token = "--" then
    if stack.isEmpty then some (throw_invalid "Stack is empty" s)
    else do
      let a ← stack_top stack
      let stack1 ← stack_pop stack
      some (.ok ((a - 1) :: stack1), add_to_history "--" s)
  else if token = "!" then
    if stack.isEmpty then some (throw_invalid "Stack is empty" s)
    else do
      let a ← stack_top stack
      let stack1 ← stack_pop stack
      some (factorial_result a stack1 s)
  else if token = "+" ∨ token = "-" ∨ token = "*" ∨ token = "/" ∨ token = "^"
      ∨ token = "%" ∨ token = "min" ∨ token = "max" ∨ token = "==" ∨ token = "!="
      ∨ token = "<" ∨ token = ">" ∨ token = "<=" ∨ token = ">=" then
    if stack.length < 2 then
      some (throw_invalid ("Not enough operands for operator '" ++ token ++ "'") s)
    else do
      let b ← stack_top stack
      let stack1 ← stack_pop stack
      let a ← stack_top stack1
      let stack2 ← stack_pop stack1
      some (binary_result H token a b stack2 s)
  else if token = "sqrt" ∨ token = "abs" ∨ token = "sin" ∨ token = "cos"
      ∨ token = "tan" ∨ token = "asin" ∨ token = "acos" ∨ token = "atan"
      ∨ token = "ln" ∨ token = "log" ∨ token = "floor" ∨ token = "ceil"
      ∨ token = "round" ∨ token = "bin" ∨ token = "hex" then
    if stack.isEmpty then some (throw_invalid "Stack is empty" s)
    else do
      let a ← stack_top stack
      let stack1 ← stack_pop stack
      some (function_result H token a stack1 s)
  else if token = "stack" then some (.ok stack, add_to_history "stack" s)
  else if token = "vars" then some (.ok stack, add_to_history "vars" s)
  else if token = "history" then some (.ok stack, add_to_history "history" s)
  else some (throw_invalid ("Invalid operator or function: '" ++ token ++ "'") s)

/-- One iteration of the loop over the tokens (lines 90-263) with explicit
`top()` and `pop()`. -/
def step_checked (H : Host) (token : String) (stack : List ℚ) (s : Session) :
    Option (Except Fault (List ℚ) × Session) :=
  if is_number token then
    match stod token with
    | .error f => some (.error f, s)
    | .ok v => some (.ok (v :: stack), add_to_history ("push " ++ token) s)
  else if token = "pi" then some (.ok (PI :: stack), add_to_history "push pi" s)
  else if token = "e" then some (.ok (E :: stack), add_to_history "push e" s)
  else if (s.vars token).isSome then
    some (.ok (variable_value s token :: stack), add_to_history ("recall " ++ token) s)
  else if token = "store" ∨ token = ">" then
    if stack.length < 2 then some (throw_invalid "Not enough operands for store" s)
    else do
      let value ← stack_top stack
      let stack1 ← stack_pop stack
      let key ← stack_top stack1
      match static_cast_int key with
      | none => some (undefined_cast s)
      | some n =>
        let var_name := to_string n
        let stack2 ← stack_pop stack1
        some (.ok stack2, add_to_history
          ("store " ++ var_name ++ " = " ++ H.to_string_double value)
          (assign var_name value s))
  else if token = "recall" ∨ token = "<" then
    if stack.isEmpty then some (throw_invalid "No variable name specified" s)
    else do
      let key ← stack_top stack
      match static_cast_int key with
      | none => some (undefined_cast s)
      | some n =>
        let var_name := to_string n
        let stack1 ← stack_pop stack
        if (s.vars var_name).isSome then
          some (.ok (variable_value s var_name :: stack1),
            add_to_history ("recall " ++ var_name) s)
        else some (throw_invalid ("Variable '" ++ var_name ++ "' not found") s)
  else if token = "rand" then
    some (.ok (H.dis s.gen :: stack), add_to_history "rand" { s with gen := s.gen + 1 })
  else if token = "dup" then
    if stack.isEmpty then some (throw_invalid "Stack is empty" s)
    else do
      let a ← stack_top stack
      some (.ok (a :: stack), add_to_history "dup" s)
  else if token = "swap" then
    if stack.length < 2 then some (throw_invalid "Not enough elements to swap" s)
    else do
      let a ← stack_top stack
      let stack1 ← stack_pop stack
      let b ← stack_top stack1
      let stack2 ← stack_pop stack1
      some (.ok (b :: a :: stack2), add_to_history "swap" s)
  else if token = "drop" then
    if stack.isEmpty then some (throw_invalid "Stack is empty" s)
    else do
      let stack1 ← stack_pop stack
      some (.ok stack1, add_to_history "drop" s)
  else if token = "clear" then do
    let emptied ← pop_all stack.length stack
    some (.ok emptied, add_to_history "clear" s)
  else if token = "undo" then
    if s.undo_stack.isEmpty then some (throw_invalid "Nothing to undo" s)
    else do
      let saved ← stack_top s.undo_stack
      let older ← stack_pop s.undo_stack
      some (.ok saved, add_to_history "undo"
        { s with redo_stack := stack :: s.redo_stack, undo_stack := older })
  else if token = "redo" then
    if s.redo_stack.isEmpty then some (throw_invalid "Nothing to redo" s)
    else do
      let saved ← stack_top s.redo_stack
      let older ← stack_pop s.redo_stack
      some (.ok saved, add_to_history "redo"
        { s with undo_stack := stack :: s.undo_stack, redo_stack := older })
  else operator_branch_checked H token stack s

/-- The loop over the tokens with explicit `top()` and `pop()`. -/
def run_tokens_checked (H : Host) : List String → List ℚ → Session →
    Option (Except Fault (List ℚ) × Session)
  | [], stack, s => some (.ok stack, s)
  | token :: rest, stack, s =>
    match step_checked H token stack s with
    | none => none
    | some (.error f, s1) => some (.error f, s1)
    | some (.ok stack1, s1) => run_tokens_checked H rest stack1 s1

/-- The end of `evaluate_rpn` (lines 265-270) with its `top()`. -/
def finish_checked (tokens : List String) (stack : List ℚ) : Option (Except Fault ℚ) :=
  if too_many_operands tokens stack then
    some (.error (.invalid_argument "Invalid expression: too many operands"))
  else if stack.isEmpty then some (.ok 0)
  else (stack_top stack).map .ok

/-- The function `evaluate_rpn` with explicit `top()` and `pop()`: `none` when
one of them was executed on an empty container. -/
def evaluate_rpn_checked (H : Host) (s : Session) (expression : String) :
    Option (Except Fault ℚ × Session) :=
  let tokens := tokenize expression
  match save_state_checked [] s with
  | none => none
  | some s0 =>
    match run_tokens_checked H tokens [] s0 with
    | none => none
    | some (.error f, s1) => some (.error f, s1)
    | some (.ok stack, s1) => (finish_checked tokens stack).map (fun r => (r, s1))
/-! ## The tokenizer -/

theorem strip_comment_eq (cs : List Char) :
    strip_comment cs = cs.takeWhile (fun c => c ≠ '#') := by
  have key : ∀ cs : List Char,
      (match find '#' cs with
        | some pos => cs.take pos
        | none => cs) = cs.takeWhile (fun c => c ≠ '#') := by
    intro cs
    induction cs with
    | nil => simp [find]
    | cons x xs ih =>
      by_cases hx : x = '#'
      · simp [find, hx]
      · cases hf : find '#' xs with
        | none => simp [find, hx, hf] at ih ⊢; exact ih
        | some pos => simp [find, hx, hf] at ih ⊢; exact ih
  exact key cs

theorem runs_nil : runs [] = [] := by
  simp [runs, List.splitOnP_nil]

theorem runs_space (c : Char) (cs : List Char) (hc : isspace c = true) :
    runs (c :: cs) = runs cs := by
  simp [runs, List.splitOnP_cons, hc]

theorem splitOnP_head (cs : List Char) :
    ∃ tl, cs.splitOnP isspace = cs.takeWhile (fun x => !isspace x) :: tl ∧
      (tl.filter (fun r => !r.isEmpty)).map String.mk
        = runs (cs.dropWhile (fun x => !isspace x)) := by
  induction cs with
  | nil => exact ⟨[], by simp [List.splitOnP_nil], by simp [runs_nil]⟩
  | cons c cs ih =>
    obtain ⟨tl, h1, h2⟩ := ih
    by_cases hc : isspace c = true
    · refine ⟨cs.splitOnP isspace, by simp [List.splitOnP_cons, hc], ?_⟩
      simp only [hc, Bool.not_true, Bool.false_eq_true, not_false_eq_true,
        List.dropWhile_cons_of_neg]
      rw [runs_space c cs hc]; rfl
    · simp only [Bool.not_eq_true] at hc
      refine ⟨tl, by simp [List.splitOnP_cons, hc, h1], ?_⟩
      simpa [hc] using h2

theorem runs_word (c : Char) (cs : List Char) (hc : isspace c = false) :
    runs (c :: cs) = String.mk ((c :: cs).takeWhile (fun x => !isspace x))
      :: runs ((c :: cs).dropWhile (fun x => !isspace x)) := by
  obtain ⟨tl, h1, h2⟩ := splitOnP_head (c :: cs)
  rw [← h2]
  simp [runs, h1, hc]

theorem runs_dropWhile (cs : List Char) : runs (cs.dropWhile isspace) = runs cs := by
  induction cs with
  | nil => rfl
  | cons c cs ih =>
    by_cases hc : isspace c = true
    · simp [hc, ih, runs_space]
    · simp [hc]

/-- The loop of the tokenizer never runs out of fuel. -/
theorem read_tokens_fuel (fuel : Nat) :
    ∀ cs : List Char, cs.length < fuel → read_tokens fuel cs = runs cs := by
  induction fuel with
  | zero => intro cs h; omega
  | succ fuel ih =>
    intro cs hlen
    rw [← runs_dropWhile cs]
    have hd : (cs.dropWhile isspace).length ≤ cs.length :=
      (List.dropWhile_sublist _).length_le
    cases hcs : cs.dropWhile isspace with
    | nil => simp [read_tokens, extract, hcs, runs_nil]
    | cons c rest =>
      have hc : isspace c = false := by
        have := List.head_dropWhile_not isspace cs
        simpa [hcs] using this
      rw [runs_word c rest hc]
      simp only [read_tokens, extract, hcs, List.span_eq_take_drop]
      congr 1
      apply ih
      have h2 : ((c :: rest).dropWhile (fun x => !isspace x)).length ≤ rest.length := by
        simp [hc]
        exact (List.dropWhile_sublist _).length_le
      rw [hcs] at hd
      simp at hd
      omega

theorem tokenize_eq_runs (s : String) :
    tokenize s = runs (s.data.takeWhile (fun c => c ≠ '#')) := by
  unfold tokenize
  simp only [strip_comment_eq]
  exact read_tokens_fuel _ _ (Nat.lt_succ_self _)

theorem read_tokens_clean (fuel : Nat) :
    ∀ cs : List Char, ∀ t ∈ read_tokens fuel cs,
      t.data ≠ [] ∧ ∀ c ∈ t.data, isspace c = false ∧ c ∈ cs := by
  induction fuel with
  | zero => intro cs t ht; simp [read_tokens] at ht
  | succ fuel ih =>
    intro cs t ht
    cases hcs : cs.dropWhile isspace with
    | nil => simp [read_tokens, extract, hcs] at ht
    | cons c rest =>
      have hc : isspace c = false := by
        have := List.head_dropWhile_not isspace cs
        simpa [hcs] using this
      have hsub : ∀ x ∈ c :: rest, x ∈ cs := by
        intro x hx
        rw [← hcs] at hx
        exact (List.dropWhile_sublist _).subset hx
      simp only [read_tokens, extract, hcs, List.span_eq_take_drop, List.mem_cons] at ht
      rcases ht with ht | ht
      · subst ht
        refine ⟨by simp [hc], ?_⟩
        intro x hx
        have hx1 : x ∈ (c :: rest).takeWhile (fun x => !isspace x) := hx
        refine ⟨?_, hsub x ((List.takeWhile_sublist _).subset hx1)⟩
        have := List.mem_takeWhile_imp hx1
        simpa using this
      · obtain ⟨h1, h2⟩ := ih _ t ht
        refine ⟨h1, fun x hx => ⟨(h2 x hx).1, hsub x ?_⟩⟩
        exact (List.dropWhile_sublist _).subset (h2 x hx).2

theorem tokenize_clean (s : String) : ∀ t ∈ tokenize s, CleanToken t := by
  intro t ht
  unfold tokenize at ht
  obtain ⟨h1, h2⟩ := read_tokens_clean _ _ t ht
  refine ⟨h1, fun c hc => ⟨(h2 c hc).1, ?_⟩⟩
  have hmem := (h2 c hc).2
  rw [strip_comment_eq] at hmem
  have := List.mem_takeWhile_imp hmem
  simpa using this

theorem runs_unwords (toks : List String) (h : ∀ t ∈ toks, CleanToken t) :
    runs (unwords_chars toks) = toks := by
  induction toks with
  | nil => simp [unwords_chars, runs_nil]
  | cons t ts ih =>
    have ht := h t (List.mem_cons_self _ _)
    have hns : ∀ x ∈ t.data, ¬ (isspace x = true) := by
      intro x hx; simp [(ht.2 x hx).1]
    cases ts with
    | nil =>
      simp only [unwords_chars, runs]
      rw [List.splitOnP_eq_single isspace _ hns]
      have : t.data.isEmpty = false := by
        cases hd : t.data with
        | nil => exact absurd hd ht.1
        | cons _ _ => rfl
      simp [this]
    | cons u us =>
      have ih1 := ih (fun x hx => h x (List.mem_cons_of_mem _ hx))
      simp only [unwords_chars, runs] at ih1 ⊢
      rw [List.splitOnP_first isspace _ hns ' ' (by decide)]
      have : t.data.isEmpty = false := by
        cases hd : t.data with
        | nil => exact absurd hd ht.1
        | cons _ _ => rfl
      simp only [List.filter_cons, this, Bool.not_false, if_true, List.map_cons]
      rw [ih1]

theorem unwords_chars_no_hash (toks : List String) (h : ∀ t ∈ toks, CleanToken t) :
    ∀ c ∈ unwords_chars toks, c ≠ '#' := by
  induction toks with
  | nil => simp [unwords_chars]
  | cons t ts ih =>
    have ht := h t (List.mem_cons_self _ _)
    cases ts with
    | nil => intro c hc; exact (ht.2 c hc).2
    | cons u us =>
      intro c hc
      simp only [unwords_chars, List.mem_append, List.mem_cons] at hc
      rcases hc with hc | hc | hc
      · exact (ht.2 c hc).2
      · subst hc; decide
      · exact ih (fun x hx => h x (List.mem_cons_of_mem _ hx)) c hc

/-- Tokens joined by single spaces are read back as they are. -/
theorem tokenize_unwords (toks : List String) (h : ∀ t ∈ toks, CleanToken t) :
    tokenize (unwords toks) = toks := by
  rw [tokenize_eq_runs]
  have : (unwords toks).data.takeWhile (fun c => c ≠ '#') = unwords_chars toks := by
    show (unwords_chars toks).takeWhile (fun c => c ≠ '#') = unwords_chars toks
    rw [List.takeWhile_eq_self_iff]
    intro c hc
    simpa using unwords_chars_no_hash toks h c hc
  rw [this, runs_unwords toks h]

/-- C10. For every text `s`, `tokenize s` is the ordered list of the maximal
runs of non-whitespace characters of the part `p` of `s` before its first `#`
(all of `s` when it has none); every token is non-empty and holds neither
whitespace nor `#`; a comment is ignored, `tokenize (a ++ "#" ++ b) =
tokenize a` for `a` without `#`; and the tokens of `s` joined by single
spaces are tokenized to the same tokens. -/
theorem tokenize_spec (s : String) :
    (∀ p rest : List Char, s.data = p ++ rest → (∀ c ∈ p, c ≠ '#') →
        (rest = [] ∨ rest.head? = some '#') → tokenize s = runs p)
    ∧ (∀ t ∈ tokenize s, t ≠ "" ∧ ∀ c ∈ t.data, isspace c = false ∧ c ≠ '#')
    ∧ (∀ a b : String, (∀ c ∈ a.data, c ≠ '#') → tokenize (a ++ "#" ++ b) = tokenize a)
    ∧ tokenize (unwords (tokenize s)) = tokenize s := by
  refine ⟨?_, ?_, ?_, ?_⟩
  · intro p rest hs hp hrest
    rw [tokenize_eq_runs, hs]
    congr 1
    rcases hrest with hr | hr
    · subst hr
      rw [List.append_nil, List.takeWhile_eq_self_iff]
      intro c hc; simpa using hp c hc
    · cases rest with
      | nil => simp at hr
      | cons r rs =>
        simp at hr; subst hr
        rw [List.takeWhile_append_of_pos (by intro c hc; simpa using hp c hc)]
        simp
  · intro t ht
    obtain ⟨h1, h2⟩ := tokenize_clean s t ht
    refine ⟨?_, h2⟩
    intro h; apply h1; rw [h]
  · intro a b ha
    rw [tokenize_eq_runs, tokenize_eq_runs]
    congr 1
    have e : (a ++ "#" ++ b).data = a.data ++ '#' :: b.data := by
      simp [String.data_append]
    rw [e, List.takeWhile_append_of_pos (by intro c hc; simpa using ha c hc)]
    have : a.data.takeWhile (fun c => c ≠ '#') = a.data := by
      rw [List.takeWhile_eq_self_iff]; intro c hc; simpa using ha c hc
    rw [this]; simp
  · exact tokenize_unwords _ (tokenize_clean s)

theorem tokenize_spec_witness :
    tokenize "3 4 # x" = runs ['3', ' ', '4', ' ']
    ∧ tokenize ("3 4 " ++ "#" ++ " x") = tokenize "3 4 " :=
  ⟨(tokenize_spec "3 4 # x").1 ['3', ' ', '4', ' '] ['#', ' ', 'x'] (by decide) (by decide)
      (by decide),
   (tokenize_spec "").2.2.1 "3 4 " " x" (by decide)⟩

/-! ## The classifier of numeric literals -/

theorem isdigit_ne_dot {c : Char} (h : isdigit c = true) : c ≠ '.' := by
  rintro rfl; revert h; decide

theorem isdigit_ne_minus {c : Char} (h : isdigit c = true) : c ≠ '-' := by
  rintro rfl; revert h; decide

theorem isdigit_ne_plus {c : Char} (h : isdigit c = true) : c ≠ '+' := by
  rintro rfl; revert h; decide

theorem isdigit_ne_hash {c : Char} (h : isdigit c = true) : c ≠ '#' := by
  rintro rfl; revert h; decide

theorem isdigit_not_space {c : Char} (h : isdigit c = true) : isspace c = false := by
  cases hs : isspace c with
  | false => rfl
  | true =>
    exfalso
    simp only [isspace, Bool.or_eq_true, decide_eq_true_eq] at hs
    rcases hs with ((((rfl | rfl) | rfl) | rfl) | rfl) | rfl <;> revert h <;> decide

theorem is_number_loop_iff (cs : List Char) :
    ∀ has_dot : Bool, is_number_loop cs has_dot = true ↔
      (∀ c ∈ cs, isdigit c = true ∨ c = '.')
        ∧ cs.count '.' + (if has_dot then 1 else 0) ≤ 1 := by
  induction cs with
  | nil => intro has_dot; cases has_dot <;> simp [is_number_loop]
  | cons c cs ih =>
    intro has_dot
    by_cases hc : c = '.'
    · subst hc
      cases has_dot
      · simp [is_number_loop, ih]
      · simp [is_number_loop]
    · by_cases hd : isdigit c = true
      · have : ('.' == c) = false := by
          simp; exact fun h => hc h.symm
        simp [is_number_loop, hc, hd, ih, List.count_cons, this]
      · simp [is_number_loop, hc, hd]

/-- What `is_number` accepts: an optional sign before a non-empty run of
digits and dots with at most one dot. -/
theorem is_number_iff (s : String) :
    is_number s = true ↔
      ∃ sign body : List Char, s.data = sign ++ body
        ∧ (sign = [] ∨ sign = ['+'] ∨ sign = ['-'])
        ∧ body ≠ []
        ∧ (∀ c ∈ body, isdigit c = true ∨ c = '.')
        ∧ body.count '.' ≤ 1 := by
  unfold is_number
  cases hs : s.data with
  | nil =>
    simp only [Bool.false_eq_true, false_iff]
    rintro ⟨sign, body, h1, _, h3, _⟩
    cases body with
    | nil => exact h3 rfl
    | cons b bs => cases sign <;> simp at h1
  | cons c cs =>
    by_cases hsign : c = '-' ∨ c = '+'
    · have hc : (c = '-' || c = '+') = true := by simpa using hsign
      simp only [hc, if_true]
      constructor
      · intro h
        by_cases hcs : cs = []
        · simp [hcs] at h
        · simp only [hcs, if_false] at h
          have := (is_number_loop_iff cs false).1 h
          refine ⟨[c], cs, rfl, ?_, hcs, this.1, by simpa using this.2⟩
          rcases hsign with rfl | rfl <;> simp
      · rintro ⟨sign, body, h1, h2, h3, h4, h5⟩
        have hbody : sign = [c] ∧ body = cs := by
          rcases h2 with rfl | rfl | rfl
          · exfalso
            simp only [List.nil_append] at h1
            have := h4 c (by rw [← h1]; exact List.mem_cons_self _ _)
            rcases this with hd | hd
            · rcases hsign with rfl | rfl
              · exact isdigit_ne_minus hd rfl
              · exact isdigit_ne_plus hd rfl
            · rcases hsign with rfl | rfl <;> revert hd <;> decide
          · simp at h1; exact ⟨by rw [h1.1], h1.2.symm⟩
          · simp at h1; exact ⟨by rw [h1.1], h1.2.symm⟩
        obtain ⟨-, rfl⟩ := hbody
        simp only [h3, if_false]
        exact (is_number_loop_iff body false).2 ⟨h4, by simpa using h5⟩
    · have hc : (c = '-' || c = '+') = false := by simpa using hsign
      simp only [hc, Bool.false_eq_true, if_false]
      rw [is_number_loop_iff]
      constructor
      · intro h
        exact ⟨[], c :: cs, rfl, Or.inl rfl, by simp, h.1, by simpa using h.2⟩
      · rintro ⟨sign, body, h1, h2, h3, h4, h5⟩
        rcases h2 with rfl | rfl | rfl
        · simp only [List.nil_append] at h1
          subst h1
          exact ⟨h4, by simpa using h5⟩
        · simp at h1; exact absurd (Or.inr h1.1) hsign
        · simp at h1; exact absurd (Or.inl h1.1) hsign

/-- A text `is_number` accepts is a token: not empty, no whitespace, no `#`. -/
theorem is_number_clean (t : String) (h : is_number t = true) : CleanToken t := by
  obtain ⟨sign, body, h1, h2, h3, h4, _⟩ := (is_number_iff t).1 h
  refine ⟨?_, ?_⟩
  · rw [h1]; cases body with
    | nil => exact absurd rfl h3
    | cons b bs => simp
  · intro c hc
    rw [h1, List.mem_append] at hc
    rcases hc with hc | hc
    · rcases h2 with rfl | rfl | rfl
      · simp at hc
      · simp at hc; subst hc; decide
      · simp at hc; subst hc; decide
    · rcases h4 c hc with hd | rfl
      · exact ⟨isdigit_not_space hd, isdigit_ne_hash hd⟩
      · decide

/-! ## Decimal numerals -/

theorem isdigit_digit_char (d : Nat) (h : d < 10) : isdigit (digit_char d) = true := by
  interval_cases d <;> decide

theorem digit_value_digit_char (d : Nat) (h : d < 10) : digit_value (digit_char d) = d := by
  interval_cases d <;> decide

theorem digits_value_append (xs : List Char) (c : Char) :
    digits_value (xs ++ [c]) = 10 * digits_value xs + digit_value c := by
  simp [digits_value, List.foldl_append]

theorem nat_digits_spec (fuel : Nat) :
    ∀ n : Nat, n < fuel →
      nat_digits fuel n ≠ [] ∧ (∀ c ∈ nat_digits fuel n, isdigit c = true)
        ∧ digits_value (nat_digits fuel n) = n := by
  induction fuel with
  | zero => intro n h; omega
  | succ fuel ih =>
    intro n hn
    by_cases h10 : n < 10
    · simp only [nat_digits, h10, if_true]
      refine ⟨by simp, ?_, ?_⟩
      · intro c hc; simp at hc; subst hc; exact isdigit_digit_char n h10
      · simp [digits_value, digit_value_digit_char n h10]
    · simp only [nat_digits, h10, if_false]
      obtain ⟨h1, h2, h3⟩ := ih (n / 10) (by omega)
      refine ⟨by simp, ?_, ?_⟩
      · intro c hc
        rw [List.mem_append] at hc
        rcases hc with hc | hc
        · exact h2 c hc
        · simp at hc; subst hc; exact isdigit_digit_char _ (Nat.mod_lt _ (by norm_num))
      · rw [digits_value_append, h3, digit_value_digit_char _ (Nat.mod_lt _ (by norm_num))]
        omega

/-- The value `stod` gives a run of digits after an optional sign. -/
theorem stod_signed_digits (sign : Sign) (ds : List Char) (hne : ds ≠ [])
    (hds : ∀ c ∈ ds, isdigit c = true) :
    stod (String.mk (sign.chars ++ ds))
      = .ok (if sign = .minus then -(digits_value ds : ℚ) else (digits_value ds : ℚ)) := by
  obtain ⟨d, ds', rfl⟩ := List.exists_cons_of_ne_nil hne
  have hd := hds d (List.mem_cons_self _ _)
  have htake : (d :: ds').takeWhile isdigit = d :: ds' := by
    rw [List.takeWhile_eq_self_iff]; exact hds
  have hdrop : (d :: ds').dropWhile isdigit = [] := by
    rw [List.dropWhile_eq_nil_iff]; exact hds
  have h1 : d ≠ '-' := isdigit_ne_minus hd
  have h2 : d ≠ '+' := isdigit_ne_plus hd
  have hv : digits_value ([] : List Char) = 0 := rfl
  cases sign with
  | absent =>
    simp [stod, Sign.chars, h1, h2, htake, hdrop, hv, -List.takeWhile_cons_of_pos,
      -List.dropWhile_cons_of_pos]
  | plus =>
    simp [stod, Sign.chars, htake, hdrop, hv, -List.takeWhile_cons_of_pos,
      -List.dropWhile_cons_of_pos]
  | minus =>
    simp [stod, Sign.chars, htake, hdrop, hv, -List.takeWhile_cons_of_pos,
      -List.dropWhile_cons_of_pos]

theorem is_number_signed_digits (sign : Sign) (ds : List Char) (hne : ds ≠ [])
    (hds : ∀ c ∈ ds, isdigit c = true) :
    is_number (String.mk (sign.chars ++ ds)) = true := by
  rw [is_number_iff]
  refine ⟨sign.chars, ds, rfl, ?_, hne, fun c hc => Or.inl (hds c hc), ?_⟩
  · cases sign <;> simp [Sign.chars]
  · have : ds.count '.' = 0 := by
      rw [List.count_eq_zero]
      intro h; exact isdigit_ne_dot (hds _ h) rfl
    omega

/-- The text of `to_string n` as a sign and a run of digits. -/
theorem to_string_eq (n : Int) :
    to_string n = String.mk ((if n < 0 then Sign.minus else Sign.absent).chars
      ++ nat_digits (n.natAbs + 1) n.natAbs) := by
  unfold to_string
  by_cases h : n < 0 <;> simp [h, Sign.chars]

theorem is_number_to_string (n : Int) : is_number (to_string n) = true := by
  obtain ⟨h1, h2, _⟩ := nat_digits_spec (n.natAbs + 1) n.natAbs (Nat.lt_succ_self _)
  rw [to_string_eq]
  exact is_number_signed_digits _ _ h1 h2

/-- Reading back what `std::to_string(int)` prints gives the number. -/
theorem stod_to_string (n : Int) : stod (to_string n) = .ok (n : ℚ) := by
  obtain ⟨h1, h2, h3⟩ := nat_digits_spec (n.natAbs + 1) n.natAbs (Nat.lt_succ_self _)
  rw [to_string_eq, stod_signed_digits _ _ h1 h2, h3]
  congr 1
  by_cases h : n < 0
  · simp only [h, if_true]
    have hq : (n : ℚ) < 0 := by exact_mod_cast h
    rw [Nat.cast_natAbs, Int.cast_abs, abs_of_neg hq]; simp
  · simp only [h, if_false]
    have hq : (0 : ℚ) ≤ (n : ℚ) := by exact_mod_cast (not_lt.1 h)
    rw [Nat.cast_natAbs, Int.cast_abs, abs_of_nonneg hq]; simp

theorem static_cast_int_intCast (n : Int) (h1 : INT_MIN ≤ n) (h2 : n ≤ INT_MAX) :
    static_cast_int (n : ℚ) = some n := by
  simp [static_cast_int, h1, h2]

@[simp] theorem add_to_history_vars (op : String) (s : Session) :
    (add_to_history op s).vars = s.vars := rfl

@[simp] theorem add_to_history_undo (op : String) (s : Session) :
    (add_to_history op s).undo_stack = s.undo_stack := rfl

@[simp] theorem add_to_history_redo (op : String) (s : Session) :
    (add_to_history op s).redo_stack = s.redo_stack := rfl

@[simp] theorem save_state_vars (stack : List ℚ) (s : Session) :
    (save_state stack s).vars = s.vars := rfl

/-- A numeric literal is pushed. -/
theorem step_number (H : Host) (token : String) (v : ℚ) (stack : List ℚ) (s : Session)
    (h1 : is_number token = true) (h2 : stod token = .ok v) :
    step H token stack s = (.ok (v :: stack), add_to_history ("push " ++ token) s) := by
  simp [step, h1, h2]

theorem run_tokens_append (H : Host) (xs ys : List String) :
    ∀ (stack : List ℚ) (s : Session),
      run_tokens H (xs ++ ys) stack s =
        match run_tokens H xs stack s with
        | (.error f, s1) => (.error f, s1)
        | (.ok stack1, s1) => run_tokens H ys stack1 s1 := by
  induction xs with
  | nil => intro stack s; simp [run_tokens]
  | cons x xs ih =>
    intro stack s
    simp only [List.cons_append, run_tokens]
    rcases hstep : step H x stack s with ⟨r, s1⟩
    cases r with
    | error f => simp
    | ok stack1 => simp [ih]

theorem tree_tokens_ne_nil (t : Expr) : t.tokens ≠ [] := by
  cases t <;> simp [Expr.tokens]

/-- An integer written in decimal is pushed. -/
theorem step_push_int (H : Host) (n : Int) (stack : List ℚ) (s : Session) :
    step H (to_string n) stack s
      = (.ok ((n : ℚ) :: stack), add_to_history ("push " ++ to_string n) s) :=
  step_number H _ _ stack s (is_number_to_string n) (stod_to_string n)

/-- The call on an expression whose tokens are known. -/
theorem evaluate_rpn_of_tokens (H : Host) (s : Session) (expression : String)
    (tokens : List String) (ht : tokenize expression = tokens) :
    evaluate_rpn H s expression =
      match run_tokens H tokens [] (save_state [] s) with
      | (.error f, s1) => (.error f, s1)
      | (.ok stack, s1) => (finish tokens stack, s1) := by
  subst ht; rfl

/-- C2. For every session and every expression whose token sequence is not
empty and does not end with `stack`, `vars` or `history`: if `evaluate_rpn`
returns `v`, the value stack at the end of the loop holds exactly the one
element `v`; and if the loop ends without error with a stack whose size is not
1, `evaluate_rpn` throws "Invalid expression: too many operands". -/
theorem evaluate_rpn_single_element (H : Host) (s : Session) (expression : String)
    (hne : tokenize expression ≠ [])
    (hstack : (tokenize expression).getLast? ≠ some "stack")
    (hvars : (tokenize expression).getLast? ≠ some "vars")
    (hhistory : (tokenize expression).getLast? ≠ some "history") :
    (∀ v : ℚ, (evaluate_rpn H s expression).1 = .ok v →
        (run_tokens H (tokenize expression) [] (save_state [] s)).1 = .ok [v])
    ∧ (∀ stack : List ℚ,
        (run_tokens H (tokenize expression) [] (save_state [] s)).1 = .ok stack →
        stack.length ≠ 1 →
        (evaluate_rpn H s expression).1
          = .error (.invalid_argument "Invalid expression: too many operands")) := by
  have hempty : (tokenize expression).isEmpty = false := by
    cases h : tokenize expression with
    | nil => exact absurd h hne
    | cons _ _ => rfl
  rcases hrun : run_tokens H (tokenize expression) [] (save_state [] s) with ⟨r, s1⟩
  cases r with
  | error f =>
    refine ⟨?_, ?_⟩
    · intro v hv; simp [evaluate_rpn, hrun] at hv
    · intro stack hst; simp at hst
  | ok st =>
    refine ⟨?_, ?_⟩
    · intro v hv
      simp only [evaluate_rpn, hrun, finish, too_many_operands, hempty, hstack, hvars,
        hhistory] at hv
      by_cases hlen : st.length = 1
      · obtain ⟨x, rfl⟩ := List.length_eq_one.1 hlen
        simp at hv
        simp [hv]
      · simp [hlen] at hv
        have hs : ¬ (tokenize expression).getLast? = some "stack" := hstack
        have hw : ¬ (tokenize expression).getLast? = some "vars" := hvars
        have hh : ¬ (tokenize expression).getLast? = some "history" := hhistory
        simp [hs, hw, hh] at hv
    · intro stack hst hlen
      simp only [Except.ok.injEq] at hst
      subst hst
      simp [evaluate_rpn, hrun, finish, too_many_operands, hempty, hstack, hvars, hhistory,
        hlen]

/-- C2 on `7` (one element, returned) and on `1 2` (two elements, refused). -/
theorem evaluate_rpn_single_element_witness :
    (run_tokens Host.sample (tokenize "7") [] (save_state [] Session.fresh)).1 = .ok [7]
    ∧ (evaluate_rpn Host.sample Session.fresh "1 2").1
          = .error (.invalid_argument "Invalid expression: too many operands") := by
  have e7 : to_string 7 = "7" := by decide
  have h7 : (evaluate_rpn Host.sample Session.fresh "7").1 = .ok 7 := by
    have t7 : tokenize "7" = [to_string 7] := by decide
    rw [evaluate_rpn_of_tokens _ _ _ _ t7]
    simp only [run_tokens, step_push_int]
    norm_num [finish, too_many_operands]
  refine ⟨(evaluate_rpn_single_element Host.sample Session.fresh "7" (by decide) (by decide)
      (by decide) (by decide)).1 7 h7, ?_⟩
  refine (evaluate_rpn_single_element Host.sample Session.fresh "1 2" (by decide) (by decide)
      (by decide) (by decide)).2 [2, 1] ?_ (by decide)
  have ht : tokenize "1 2" = [to_string 1, to_string 2] := by decide
  rw [ht]
  simp only [run_tokens, step_push_int]
  norm_num

/-! ## Undo and redo across calls -/

/-- A call on a decimal integer returns it and leaves the variables alone. -/
theorem evaluate_rpn_int (H : Host) (s : Session) (n : Int) :
    evaluate_rpn H s (to_string n)
      = (.ok (n : ℚ), add_to_history ("push " ++ to_string n) (save_state [] s)) := by
  have ht : tokenize (to_string n) = [to_string n] := by
    have := tokenize_unwords [to_string n]
      (by intro t ht; simp at ht; subst ht; exact is_number_clean _ (is_number_to_string n))
    simpa [unwords, unwords_chars] using this
  simp [evaluate_rpn, ht, run_tokens, step_push_int, finish, too_many_operands]

/-- The call `evaluate_rpn("undo")` throws in every session without a variable
named `undo`: the snapshot taken at line 88 is the empty stack, `undo` restores
it, and the check after the loop refuses an empty stack. -/
theorem evaluate_rpn_undo (H : Host) (s : Session) (h : s.vars "undo" = none) :
    evaluate_rpn H s "undo"
      = (.error (.invalid_argument "Invalid expression: too many operands"),
          add_to_history "undo"
            { s with redo_stack := [[]], undo_stack := s.undo_stack }) := by
  have ht : tokenize "undo" = ["undo"] := by decide
  have hn : is_number "undo" = false := by decide
  simp [evaluate_rpn, ht, run_tokens, step, hn, h, save_state, finish, too_many_operands]

/-- The call `evaluate_rpn("redo")` throws in every session without a variable
named `redo`: `save_state` has emptied the redo log. -/
theorem evaluate_rpn_redo (H : Host) (s : Session) (h : s.vars "redo" = none) :
    evaluate_rpn H s "redo"
      = (.error (.invalid_argument "Nothing to redo"), save_state [] s) := by
  have ht : tokenize "redo" = ["redo"] := by decide
  have hn : is_number "redo" = false := by decide
  simp [evaluate_rpn, ht, run_tokens, step, hn, h, save_state, throw_invalid]

/-- C3 (the code departs from the claim). In a fresh session `evaluate_rpn("10")`
returns 10; the following `evaluate_rpn("undo")` does not return 0 but throws
"Invalid expression: too many operands"; and `evaluate_rpn("redo")` after that
does not return 10 but throws "Nothing to redo". -/
theorem undo_redo_across_calls (H : Host) :
    (evaluate_rpn H Session.fresh "10").1 = .ok 10
    ∧ (evaluate_rpn H (evaluate_rpn H Session.fresh "10").2 "undo").1
        = .error (.invalid_argument "Invalid expression: too many operands")
    ∧ (evaluate_rpn H (evaluate_rpn H (evaluate_rpn H Session.fresh "10").2 "undo").2 "redo").1
        = .error (.invalid_argument "Nothing to redo") := by
  have e10 : to_string 10 = "10" := by decide
  have h1 := evaluate_rpn_int H Session.fresh 10
  rw [e10] at h1
  have h2 := evaluate_rpn_undo H (evaluate_rpn H Session.fresh "10").2 (by rw [h1]; rfl)
  have h3 := evaluate_rpn_redo H
    (evaluate_rpn H (evaluate_rpn H Session.fresh "10").2 "undo").2 (by rw [h2, h1]; rfl)
  refine ⟨?_, ?_, ?_⟩
  · rw [h1]; norm_num
  · rw [h2]
  · rw [h3]

/-! ## The value stack is local to a call -/

/-- A binary `+` on a stack of one element throws. -/
theorem evaluate_rpn_literal_plus (H : Host) (s : Session) (x : String) (v : ℚ)
    (hx : is_number x = true) (hv : stod x = .ok v) (hplus : s.vars "+" = none) :
    (evaluate_rpn H s (unwords [x, "+"])).1
      = .error (.invalid_argument "Not enough operands for operator '+'") := by
  have ht : tokenize (unwords [x, "+"]) = [x, "+"] := by
    apply tokenize_unwords
    intro t ht
    simp only [List.mem_cons, List.mem_singleton, List.not_mem_nil, or_false] at ht
    rcases ht with rfl | rfl
    · exact is_number_clean _ hx
    · exact ⟨by decide, by decide⟩
  have hn : is_number "+" = false := by decide
  have hp : (add_to_history ("push " ++ x) (save_state [] s)).vars "+" = none := hplus
  simp [evaluate_rpn, ht, run_tokens, step_number H x v [] _ hx hv]
  simp [step, hn, hp, operator_branch, binary_branch, throw_invalid]

/-- C4 as stated fails: in a fresh session, after `evaluate_rpn("3")` returns 3,
the call `evaluate_rpn("4 +")` does not return 7, it throws "Not enough operands
for operator '+'". -/
theorem stack_not_shared :
    (evaluate_rpn Host.sample Session.fresh "3").1 = .ok 3
    ∧ (evaluate_rpn Host.sample (evaluate_rpn Host.sample Session.fresh "3").2 "4 +").1
        = .error (.invalid_argument "Not enough operands for operator '+'") := by
  have e3 : to_string 3 = "3" := by decide
  have h1 := evaluate_rpn_int Host.sample Session.fresh 3
  rw [e3] at h1
  refine ⟨by rw [h1]; norm_num, ?_⟩
  have e : unwords ["4", "+"] = "4 +" := by decide
  have h2 := evaluate_rpn_literal_plus Host.sample
    (evaluate_rpn Host.sample Session.fresh "3").2 "4" 4 (by decide)
    (by simpa using stod_to_string 4) (by rw [h1]; rfl)
  rw [e] at h2
  exact h2

/-- C4, amended. The value stack is local to a call: whatever an earlier call
`e1` computed, the next call runs its tokens from the empty stack, on the
session the earlier call left; so a call `x +`, for a numeric literal `x`,
finds one operand only and throws "Not enough operands for operator '+'"
(when no variable is named `+`). -/
theorem stack_local_to_call (H : Host) (s : Session) (e1 e2 x : String) (v : ℚ)
    (hx : is_number x = true) (hv : stod x = .ok v)
    (hplus : (evaluate_rpn H s e1).2.vars "+" = none) :
    evaluate_rpn H (evaluate_rpn H s e1).2 e2
        = (match run_tokens H (tokenize e2) [] (save_state [] (evaluate_rpn H s e1).2) with
            | (.error f, s1) => (.error f, s1)
            | (.ok stack, s1) => (finish (tokenize e2) stack, s1))
    ∧ (evaluate_rpn H (evaluate_rpn H s e1).2 (unwords [x, "+"])).1
        = .error (.invalid_argument "Not enough operands for operator '+'") :=
  ⟨rfl, evaluate_rpn_literal_plus H _ x v hx hv hplus⟩

/-- C4, amended, on the calls `3` and then `4 +` of a fresh session. -/
theorem stack_local_to_call_witness :
    (evaluate_rpn Host.sample (evaluate_rpn Host.sample Session.fresh "3").2
        (unwords ["4", "+"])).1
      = .error (.invalid_argument "Not enough operands for operator '+'") := by
  have e3 : to_string 3 = "3" := by decide
  have h1 := evaluate_rpn_int Host.sample Session.fresh 3
  rw [e3] at h1
  exact (stack_local_to_call Host.sample Session.fresh "3" "" "4" 4 (by decide)
    (by simpa using stod_to_string 4) (by rw [h1]; rfl)).2

/-! ## The tokens `<` and `>` -/

theorem tokenize_three (a b op : String) (ha : is_number a = true) (hb : is_number b = true)
    (hop : CleanToken op) : tokenize (unwords [a, b, op]) = [a, b, op] := by
  apply tokenize_unwords
  intro t ht
  simp only [List.mem_cons, List.mem_singleton, List.not_mem_nil, or_false] at ht
  rcases ht with rfl | rfl | rfl
  · exact is_number_clean _ ha
  · exact is_number_clean _ hb
  · exact hop

/-- The call `a b <` never returns a value, in any session: `<` is taken by the
branch of `recall` (line 110), which throws or leaves two values on the stack. -/
theorem less_never_returns (H : Host) (s : Session) (a b : String)
    (ha : is_number a = true) (hb : is_number b = true) (v : ℚ) :
    (evaluate_rpn H s (unwords [a, b, "<"])).1 ≠ .ok v := by
  have ht := tokenize_three a b "<" ha hb ⟨by decide, by decide⟩
  have hn : is_number "<" = false := by decide
  simp only [evaluate_rpn, ht, run_tokens]
  cases hsa : stod a with
  | error f => simp [step, ha, hsa]
  | ok va =>
    rw [step_number H a va _ _ ha hsa]
    cases hsb : stod b with
    | error f => simp [step, hb, hsb]
    | ok vb =>
      simp only [step_number H b vb _ _ hb hsb]
      cases hvar : s.vars "<" with
      | some w =>
        simp [step, hn, save_state, hvar, finish, too_many_operands]
      | none =>
        cases hc : static_cast_int vb with
        | none => simp [step, hn, save_state, hvar, hc, undefined_cast]
        | some n =>
          cases hl : s.vars (to_string n) with
          | none => simp [step, hn, save_state, hvar, hc, hl, throw_invalid]
          | some w =>
            simp [step, hn, save_state, hvar, hc, hl, finish, too_many_operands]

/-- The call `a b >` never returns a value, in any session: `>` is taken by the
branch of `store` (line 103), which empties the stack. -/
theorem greater_never_returns (H : Host) (s : Session) (a b : String)
    (ha : is_number a = true) (hb : is_number b = true) (v : ℚ) :
    (evaluate_rpn H s (unwords [a, b, ">"])).1 ≠ .ok v := by
  have ht := tokenize_three a b ">" ha hb ⟨by decide, by decide⟩
  have hn : is_number ">" = false := by decide
  simp only [evaluate_rpn, ht, run_tokens]
  cases hsa : stod a with
  | error f => simp [step, ha, hsa]
  | ok va =>
    rw [step_number H a va _ _ ha hsa]
    cases hsb : stod b with
    | error f => simp [step, hb, hsb]
    | ok vb =>
      simp only [step_number H b vb _ _ hb hsb]
      cases hvar : s.vars ">" with
      | some w =>
        simp [step, hn, save_state, hvar, finish, too_many_operands]
      | none =>
        cases hc : static_cast_int va with
        | none => simp [step, hn, save_state, hvar, hc, undefined_cast]
        | some n =>
          simp [step, hn, save_state, hvar, hc, finish, too_many_operands]

/-- C5 (the code departs from the claim). In a fresh session `1 2 <` does not
return 1: the token `<` recalls the variable named `2` and throws "Variable '2'
not found"; and `2 1 >` does not return 1: the token `>` stores 1 in the
variable named `2`, empties the stack, and the call throws "Invalid expression:
too many operands". -/
theorem less_greater_are_aliases (H : Host) :
    (evaluate_rpn H Session.fresh "1 2 <").1
        = .error (.invalid_argument "Variable '2' not found")
    ∧ (evaluate_rpn H Session.fresh "2 1 >").1
        = .error (.invalid_argument "Invalid expression: too many operands")
    ∧ (evaluate_rpn H Session.fresh "2 1 >").2.vars "2" = some 1 := by
  have t1 : tokenize "1 2 <" = [to_string 1, to_string 2, "<"] := by decide
  have t2 : tokenize "2 1 >" = [to_string 2, to_string 1, ">"] := by decide
  have hl : is_number "<" = false := by decide
  have hg : is_number ">" = false := by decide
  have c2 : static_cast_int (2 : ℚ) = some 2 := by
    simpa using static_cast_int_intCast 2 (by decide) (by decide)
  have s2 : to_string 2 = "2" := by decide
  refine ⟨?_, ?_, ?_⟩
  · rw [evaluate_rpn_of_tokens H _ _ _ t1]
    simp only [run_tokens, step_push_int]
    simp [step, hl, save_state, Session.fresh, c2, s2, throw_invalid]
  · rw [evaluate_rpn_of_tokens H _ _ _ t2]
    simp only [run_tokens, step_push_int]
    simp [step, hg, save_state, Session.fresh, c2, finish, too_many_operands]
  · rw [evaluate_rpn_of_tokens H _ _ _ t2]
    simp only [run_tokens, step_push_int]
    simp [step, hg, save_state, Session.fresh, c2, s2, assign]

/-! ## Division -/

/-- The token `/`, when no variable is named `/`, on a stack of two or more. -/
theorem step_divide (H : Host) (a b : ℚ) (rest : List ℚ) (s : Session)
    (hvar : s.vars "/" = none) :
    step H "/" (b :: a :: rest) s =
      if b = 0 then (.error (.invalid_argument "Division by zero"), s)
      else (.ok (a / b :: rest), add_to_history "/" s) := by
  have hn : is_number "/" = false := by decide
  by_cases hb : b = 0
  · simp [step, hn, hvar, operator_branch, binary_branch, hb, throw_invalid]
  · simp [step, hn, hvar, operator_branch, binary_branch, hb]

/-- The token `/` reached after the tokens `before`, in a session in which no
variable is named `/`: "Division by zero" when the top `b` is 0, the quotient
`a / b` otherwise. -/
theorem divide_at_token (H : Host) (s s1 : Session) (expression : String)
    (before after : List String) (a b : ℚ) (rest : List ℚ)
    (ht : tokenize expression = before ++ "/" :: after)
    (hrun : run_tokens H before [] (save_state [] s) = (.ok (b :: a :: rest), s1))
    (hvar : s1.vars "/" = none) :
    (b = 0 → evaluate_rpn H s expression
        = (.error (.invalid_argument "Division by zero"), s1))
    ∧ (b ≠ 0 → step H "/" (b :: a :: rest) s1
        = (.ok (a / b :: rest), add_to_history "/" s1)) := by
  refine ⟨?_, ?_⟩
  · intro hb
    subst hb
    rw [evaluate_rpn_of_tokens H s expression _ ht, run_tokens_append, hrun]
    simp only [run_tokens, step_divide H a 0 rest s1 hvar, if_true]
  · intro hb
    rw [step_divide H a b rest s1 hvar, if_neg hb]

/-! ## Factorial -/

/-- The loop of the factorial computes the factorial: started at `i` with the
product of the numbers below `i`, it ends with `n !`, if `n` is below
`INT_MAX` and the fuel covers the iterations left. -/
theorem factorial_loop_spec (n : Nat) (hn : (n : Int) < INT_MAX) (fuel : Nat) :
    ∀ i : Nat, 1 ≤ i → i ≤ n + 1 → n + 1 ≤ fuel + i →
      factorial_loop (n : Int) fuel (i : Int) (((i - 1).factorial : Nat) : ℚ)
        = .ok ((n.factorial : Nat) : ℚ) := by
  induction fuel with
  | zero =>
    intro i _ h2 h3
    have : i = n + 1 := by omega
    subst this
    simp [factorial_loop]
  | succ fuel ih =>
    intro i h1 h2 h3
    by_cases hi : i ≤ n
    · have hle : (i : Int) ≤ (n : Int) := by exact_mod_cast hi
      have hne : (i : Int) ≠ INT_MAX := by omega
      have hstep := ih (i + 1) (by omega) (by omega) (by omega)
      simp only [factorial_loop, hle, if_true, hne, if_false]
      have e : (((i - 1).factorial : Nat) : ℚ) * ((i : Int) : ℚ)
          = (((i + 1 - 1).factorial : Nat) : ℚ) := by
        obtain ⟨k, rfl⟩ : ∃ k, i = k + 1 := ⟨i - 1, by omega⟩
        simp [Nat.factorial_succ]
        ring
      rw [e]
      exact_mod_cast hstep
    · have hgt : ¬ (i : Int) ≤ (n : Int) := by
        intro h; exact hi (by exact_mod_cast h)
      have : i = n + 1 := by omega
      subst this
      simp [factorial_loop, hgt]

/-- At `n = INT_MAX` the loop counter overflows: undefined behaviour. -/
theorem factorial_loop_overflow (fuel : Nat) :
    ∀ (i : Int) (result : ℚ), i ≤ INT_MAX → INT_MAX - i < fuel →
      factorial_loop INT_MAX fuel i result
        = .error (.undefined "signed overflow of the loop counter") := by
  induction fuel with
  | zero => intro i r h1 h2; simp at h2; omega
  | succ fuel ih =>
    intro i r h1 h2
    by_cases hi : i = INT_MAX
    · simp [factorial_loop, hi]
    · have h3 : i + 1 ≤ INT_MAX := by omega
      simp only [factorial_loop, h1, if_true, hi, if_false]
      exact ih (i + 1) _ h3 (by push_cast at h2 ⊢; omega)

/-- The conversion to `int` of a non-negative value below `2^31` is defined. -/
theorem static_cast_int_nonneg (a : ℚ) (h0 : 0 ≤ a) (h1 : a < 2147483648) :
    ∃ t : Int, static_cast_int a = some t := by
  have hnum : 0 ≤ a.num := Rat.num_nonneg.2 h0
  have hden : (0 : Int) ≤ (a.den : Int) := Int.natCast_nonneg _
  have e : Int.tdiv a.num (a.den : Int) = ⌊a⌋ := by
    rw [Int.tdiv_eq_ediv hnum hden, Rat.floor_def]
  have hlo : (0 : Int) ≤ ⌊a⌋ := Int.floor_nonneg.2 h0
  have hhi : ⌊a⌋ < (2147483648 : Int) := by
    rw [Int.floor_lt]; exact_mod_cast h1
  refine ⟨⌊a⌋, ?_⟩
  unfold static_cast_int
  simp only [e]
  rw [if_pos]
  refine ⟨?_, ?_⟩
  · unfold INT_MIN; omega
  · unfold INT_MAX; omega

/-- The token `!` on a negative value throws. -/
theorem step_factorial_negative (H : Host) (a : ℚ) (rest : List ℚ) (s : Session)
    (hvar : s.vars "!" = none) (ha : a < 0) :
    step H "!" (a :: rest) s
      = (.error (.invalid_argument "Factorial requires non-negative integer"), s) := by
  have hn : is_number "!" = false := by decide
  simp [step, hn, hvar, operator_branch, ha, throw_invalid]

/-- The token `!` on a value with a fractional part throws. -/
theorem step_factorial_fraction (H : Host) (a : ℚ) (rest : List ℚ) (s : Session)
    (hvar : s.vars "!" = none) (h0 : 0 ≤ a) (h1 : a < 2147483648)
    (hfrac : ¬ ∃ z : Int, a = (z : ℚ)) :
    step H "!" (a :: rest) s
      = (.error (.invalid_argument "Factorial requires non-negative integer"), s) := by
  have hn : is_number "!" = false := by decide
  obtain ⟨t, ht⟩ := static_cast_int_nonneg a h0 h1
  have hne : ¬ a = (t : ℚ) := fun h => hfrac ⟨t, h⟩
  simp [step, hn, hvar, operator_branch, not_lt.2 h0, ht, hne, throw_invalid]

/-- The token `!` on a natural number below `INT_MAX` computes its factorial. -/
theorem step_factorial_nat (H : Host) (m : Nat) (rest : List ℚ) (s : Session)
    (hvar : s.vars "!" = none) (hm : (m : Int) < INT_MAX) :
    step H "!" ((m : ℚ) :: rest) s
      = (.ok (((m.factorial : Nat) : ℚ) :: rest), add_to_history "!" s) := by
  have hn : is_number "!" = false := by decide
  have hcast : static_cast_int (m : ℚ) = some (m : Int) := by
    have := static_cast_int_intCast (m : Int) (by unfold INT_MIN; omega) (by omega)
    simpa using this
  have hloop : factorial_loop (m : Int) m 2 1 = .ok ((m.factorial : Nat) : ℚ) := by
    by_cases h0 : m = 0
    · subst h0; simp [factorial_loop]
    · have := factorial_loop_spec m hm m 2 (by omega) (by omega) (by omega)
      simpa using this
  have h0 : ¬ ((m : ℚ) < 0) := by
    have : (0 : ℚ) ≤ (m : ℚ) := Nat.cast_nonneg m
    exact not_lt.2 this
  simp [step, hn, hvar, operator_branch, h0, hcast, hloop]

/-- The token `!` on a non-negative value whose conversion to `int` is
undefined. -/
theorem step_factorial_undefined (H : Host) (a : ℚ) (rest : List ℚ) (s : Session)
    (hvar : s.vars "!" = none) (h0 : 0 ≤ a) (hc : static_cast_int a = none) :
    step H "!" (a :: rest) s
      = (.error (.undefined "conversion to int out of range"), s) := by
  have hn : is_number "!" = false := by decide
  simp [step, hn, hvar, operator_branch, not_lt.2 h0, hc, undefined_cast]

/-- The token `!` on `INT_MAX`: the loop counter overflows. -/
theorem step_factorial_overflow (H : Host) (rest : List ℚ) (s : Session)
    (hvar : s.vars "!" = none) :
    step H "!" ((INT_MAX : ℚ) :: rest) s
      = (.error (.undefined "signed overflow of the loop counter"), s) := by
  have hn : is_number "!" = false := by decide
  have hc : static_cast_int (INT_MAX : ℚ) = some INT_MAX :=
    static_cast_int_intCast INT_MAX (by decide) (by decide)
  have hloop := factorial_loop_overflow INT_MAX.toNat 2 1 (by decide) (by decide)
  have h0 : ¬ ((INT_MAX : ℚ) < 0) := by
    have : (0 : ℚ) ≤ (INT_MAX : ℚ) := by exact_mod_cast (by decide : (0 : Int) ≤ INT_MAX)
    exact not_lt.2 this
  simp [step, hn, hvar, operator_branch, h0, hc, hloop]

/-- A call `n !` on which the token `!` fails ends with that fault. -/
theorem evaluate_rpn_factorial_fault (H : Host) (s : Session) (expression : String)
    (n : Int) (f : Fault) (ht : tokenize expression = [to_string n, "!"])
    (hstep : ∀ s1 : Session, s1.vars "!" = s.vars "!" →
      step H "!" [(n : ℚ)] s1 = (.error f, s1)) :
    (evaluate_rpn H s expression).1 = .error f := by
  rw [evaluate_rpn_of_tokens H s expression _ ht]
  simp only [run_tokens, step_push_int]
  rw [hstep (add_to_history ("push " ++ to_string n) (save_state [] s)) rfl]

/-- C7 as stated fails at the edge of the `int` range: `2147483648` is a
non-negative integer value, but converting it to `int` is undefined (line 172),
so `2147483648 !` neither throws the factorial error nor computes a factorial;
and for `n = 2147483647`, which is in `int` range, the loop counter `i`
overflows (line 176), so `2147483647 !` does not return a factorial. -/
theorem factorial_out_of_range :
    (evaluate_rpn Host.sample Session.fresh "2147483648 !").1
        = .error (.undefined "conversion to int out of range")
    ∧ (evaluate_rpn Host.sample Session.fresh "2147483647 !").1
        = .error (.undefined "signed overflow of the loop counter") := by
  have t1 : tokenize "2147483648 !" = [to_string 2147483648, "!"] := by decide
  have t2 : tokenize "2147483647 !" = [to_string INT_MAX, "!"] := by decide
  have c1 : static_cast_int ((2147483648 : Int) : ℚ) = none := by
    simp [static_cast_int, INT_MIN, INT_MAX]
  have h0 : (0 : ℚ) ≤ ((2147483648 : Int) : ℚ) := by norm_num
  exact ⟨evaluate_rpn_factorial_fault _ _ _ _ _ t1
      (fun s1 h1 => step_factorial_undefined _ _ _ s1 h1 h0 c1),
    evaluate_rpn_factorial_fault _ _ _ _ _ t2
      (fun s1 h1 => step_factorial_overflow _ _ s1 h1)⟩

/-- C7, amended. When the token `!` is processed on a stack whose top `a` is
below `2^31` and is not `2^31 - 1` (and no variable is named `!`), it throws
"Factorial requires non-negative integer" if and only if `a` is negative or not
integer-valued; otherwise `a` is a natural number `m` and the token replaces it
by `m !`. In particular, for every natural number `n` below `2^31 - 1`, the
call `n !` returns the factorial of `n`. -/
theorem factorial_spec (H : Host) (s : Session) (a : ℚ) (rest : List ℚ)
    (hvar : s.vars "!" = none) (hrange : a < 2147483648) (hmax : a ≠ 2147483647) :
    ((step H "!" (a :: rest) s).1
        = .error (.invalid_argument "Factorial requires non-negative integer")
      ↔ (a < 0 ∨ ¬ ∃ z : Int, a = (z : ℚ)))
    ∧ (∀ m : Nat, a = (m : ℚ) →
        step H "!" (a :: rest) s
          = (.ok (((m.factorial : Nat) : ℚ) :: rest), add_to_history "!" s))
    ∧ (∀ n : Nat, n < 2147483647 →
        (evaluate_rpn H s (unwords [to_string (n : Int), "!"])).1
          = .ok ((n.factorial : Nat) : ℚ)) := by
  have hnat : ∀ m : Nat, a = (m : ℚ) →
      step H "!" (a :: rest) s
        = (.ok (((m.factorial : Nat) : ℚ) :: rest), add_to_history "!" s) := by
    intro m hm
    subst hm
    have h1 : m < 2147483648 := by exact_mod_cast hrange
    have h2 : m ≠ 2147483647 := by
      intro h; apply hmax; rw [h]; norm_num
    exact step_factorial_nat H m rest s hvar (by unfold INT_MAX; omega)
  refine ⟨⟨?_, ?_⟩, hnat, ?_⟩
  · intro herr
    by_contra hcon
    push_neg at hcon
    obtain ⟨h0, z, hz⟩ := hcon
    have hz0 : 0 ≤ z := by
      have : (0 : ℚ) ≤ (z : ℚ) := hz ▸ h0
      exact_mod_cast this
    obtain ⟨m, rfl⟩ := Int.eq_ofNat_of_zero_le hz0
    rw [hnat m (by rw [hz]; simp)] at herr
    simp at herr
  · rintro (hneg | hfrac)
    · rw [step_factorial_negative H a rest s hvar hneg]
    · by_cases h0 : a < 0
      · rw [step_factorial_negative H a rest s hvar h0]
      · rw [step_factorial_fraction H a rest s hvar (not_lt.1 h0) hrange hfrac]
  · intro n hn
    have ht : tokenize (unwords [to_string (n : Int), "!"]) = [to_string (n : Int), "!"] := by
      apply tokenize_unwords
      intro t ht
      simp only [List.mem_cons, List.mem_singleton, List.not_mem_nil, or_false] at ht
      rcases ht with rfl | rfl
      · exact is_number_clean _ (is_number_to_string _)
      · exact ⟨by decide, by decide⟩
    rw [evaluate_rpn_of_tokens H s _ _ ht]
    simp only [run_tokens, step_push_int]
    have := step_factorial_nat H n [] (add_to_history ("push " ++ to_string (n : Int))
      (save_state [] s)) hvar (by unfold INT_MAX; omega)
    simp only [Int.cast_natCast]
    rw [this]
    simp [finish, too_many_operands]

/-- C7, amended, on the examples of the claim: `5 !` returns 120, and `!` on
the value 2.5 throws, so that the call `2.5 !` throws. -/
theorem factorial_spec_witness :
    (evaluate_rpn Host.sample Session.fresh "5 !").1 = .ok 120
    ∧ (evaluate_rpn Host.sample Session.fresh "2.5 !").1
        = .error (.invalid_argument "Factorial requires non-negative integer") := by
  have hfrac : ¬ ∃ z : Int, (5 / 2 : ℚ) = (z : ℚ) := by
    rintro ⟨z, hz⟩
    have h2 : ((2 * z : Int) : ℚ) = ((5 : Int) : ℚ) := by
      push_cast; rw [← hz]; norm_num
    have h3 : 2 * z = 5 := by exact_mod_cast h2
    omega
  have h := factorial_spec Host.sample
    (add_to_history ("push " ++ "2.5") (save_state [] Session.fresh)) (5 / 2) [] rfl
    (by norm_num) (by norm_num)
  have h' := factorial_spec Host.sample Session.fresh (5 / 2) [] rfl (by norm_num) (by norm_num)
  refine ⟨?_, ?_⟩
  · have h5 := h'.2.2 5 (by norm_num)
    have e : unwords [to_string ((5 : Nat) : Int), "!"] = "5 !" := by decide
    rw [e] at h5
    rw [h5]
    norm_num [Nat.factorial]
  · have ht : tokenize "2.5 !" = ["2.5", "!"] := by decide
    have hv : stod "2.5" = .ok (5 / 2) := by
      simp [stod, digits_value, digit_value, isdigit]; norm_num
    have hstep := h.1.2 (Or.inr hfrac)
    rw [evaluate_rpn_of_tokens _ _ _ _ ht]
    simp only [run_tokens, step_number Host.sample "2.5" (5 / 2) [] _ (by decide) hv]
    rcases hs : step Host.sample "!" [5 / 2]
      (add_to_history ("push " ++ "2.5") (save_state [] Session.fresh)) with ⟨r, s1⟩
    rw [hs] at hstep
    simp only at hstep
    subst hstep
    rfl

/-! ## Store and recall -/

/-- The library reads every literal of the grammar: `stod` does not throw. -/
theorem stod_of_literal (lit : String) (h : NumericLiteral lit) : ∃ v : ℚ, stod lit = .ok v := by
  obtain ⟨sign, body, h1, h2, h3, h4, d, hd, hdd⟩ := h
  have hbody : (if lit.data.head? = some '-' ∨ lit.data.head? = some '+'
      then lit.data.tail else lit.data) = body := by
    rcases h2 with rfl | rfl | rfl
    · simp only [List.nil_append] at h1
      rw [h1]
      cases body with
      | nil => simp
      | cons b bs =>
        have hb := h3 b (List.mem_cons_self _ _)
        have hm : b ≠ '-' := by
          rcases hb with hb | hb
          · exact isdigit_ne_minus hb
          · rw [hb]; decide
        have hp : b ≠ '+' := by
          rcases hb with hb | hb
          · exact isdigit_ne_plus hb
          · rw [hb]; decide
        simp [hm, hp]
    · rw [h1]; simp
    · rw [h1]; simp
  have hnot : ¬ (body.takeWhile isdigit = [] ∧
      (match body.dropWhile isdigit with
        | '.' :: rest => rest.takeWhile isdigit
        | _ => []) = []) := by
    rintro ⟨ht, hf⟩
    cases body with
    | nil => simp at hd
    | cons b bs =>
      have hbnd : isdigit b = false := by
        cases hb : isdigit b with
        | false => rfl
        | true => simp [List.takeWhile, hb] at ht
      have hbdot : b = '.' := by
        rcases h3 b (List.mem_cons_self _ _) with hb | hb
        · rw [hb] at hbnd; exact absurd hbnd (by simp)
        · exact hb
      subst hbdot
      have hcount : bs.count '.' = 0 := by
        simp [List.count_cons] at h4
        exact h4
      have hall : ∀ c ∈ bs, isdigit c = true := by
        intro c hc
        rcases h3 c (List.mem_cons_of_mem _ hc) with hcd | hcd
        · exact hcd
        · subst hcd
          rw [List.count_eq_zero] at hcount
          exact absurd hc hcount
      have hdbs : d ∈ bs := by
        rcases List.mem_cons.1 hd with hd1 | hd1
        · subst hd1; exact absurd hdd (by decide)
        · exact hd1
      have htk : bs.takeWhile isdigit = bs := by
        rw [List.takeWhile_eq_self_iff]; exact hall
      simp [List.dropWhile, hbnd, htk] at hf
      subst hf
      simp at hdbs
  unfold stod
  simp only [hbody]
  rw [if_neg hnot]
  exact ⟨_, rfl⟩

/-- The token `store`, when no variable is named `store`. -/
theorem step_store (H : Host) (value key : ℚ) (rest : List ℚ) (s : Session) (n : Int)
    (hvar : s.vars "store" = none) (hc : static_cast_int key = some n) :
    step H "store" (value :: key :: rest) s
      = (.ok rest, add_to_history
          ("store " ++ to_string n ++ " = " ++ H.to_string_double value)
          (assign (to_string n) value s)) := by
  have hn : is_number "store" = false := by decide
  simp [step, hn, hvar, hc]

theorem not_literal_dot : ¬ NumericLiteral "." := by
  rintro ⟨sign, body, h1, h2, _, _, c, hc, hcd⟩
  have h1' : ['.'] = sign ++ body := h1
  rcases h2 with rfl | rfl | rfl
  · simp only [List.nil_append] at h1'
    subst h1'
    simp at hc
    subst hc
    exact absurd hcd (by decide)
  · simp at h1'
  · simp at h1'

theorem not_literal_plus_dot : ¬ NumericLiteral "+." := by
  rintro ⟨sign, body, h1, h2, h3, _, c, hc, hcd⟩
  have h1' : ['+', '.'] = sign ++ body := h1
  rcases h2 with rfl | rfl | rfl
  · simp only [List.nil_append] at h1'
    subst h1'
    have := h3 '+' (by simp)
    revert this
    decide
  · simp at h1'
    subst h1'
    simp at hc
    subst hc
    exact absurd hcd (by decide)
  · simp at h1'

/-- C9 (the code departs from the claim). `is_number` accepts `.` and `+.`,
which hold no digit and are not literals of the grammar; it refuses `+`, `-`
and `1.2.3`. On the token `.` the evaluator then calls `std::stod`, which
throws the library's own `invalid_argument("stod")`. -/
theorem is_number_without_digit :
    is_number "." = true ∧ is_number "+." = true
    ∧ ¬ NumericLiteral "." ∧ ¬ NumericLiteral "+."
    ∧ is_number "+" = false ∧ is_number "-" = false ∧ is_number "1.2.3" = false
    ∧ ∀ (H : Host) (s : Session),
        (evaluate_rpn H s ".").1 = .error (.invalid_argument "stod") := by
  refine ⟨by decide, by decide, not_literal_dot, not_literal_plus_dot, by decide, by decide,
    by decide, ?_⟩
  intro H s
  have ht : tokenize "." = ["."] := by decide
  have hn : is_number "." = true := by decide
  have hv : stod "." = .error (.invalid_argument "stod") := by
    simp [stod, isdigit]
  rw [evaluate_rpn_of_tokens H s _ _ ht]
  simp [run_tokens, step, hn, hv]

/-! ## What a token does to the session -/

theorem plain_throw (what : String) (s : Session) :
    Plain (throw_invalid what s : Except Fault (List ℚ) × Session) s :=
  Or.inl ⟨_, rfl⟩

theorem plain_ok (st : List ℚ) (op : String) (s : Session) :
    Plain (.ok st, add_to_history op s) s :=
  Or.inr ⟨_, _, rfl⟩

theorem plain_ite {c : Prop} [Decidable c] {a b : Except Fault (List ℚ) × Session}
    {s : Session} (ha : Plain a s) (hb : Plain b s) : Plain (if c then a else b) s := by
  by_cases h : c
  · rw [if_pos h]; exact ha
  · rw [if_neg h]; exact hb

theorem binary_branch_plain (H : Host) (token : String) (stack : List ℚ) (s : Session) :
    Plain (binary_branch H token stack s) s := by
  unfold binary_branch
  split
  · repeat (first | exact plain_throw _ _ | exact plain_ok _ _ _ | apply plain_ite)
  · exact plain_throw _ _

theorem function_branch_plain (H : Host) (token : String) (stack : List ℚ) (s : Session) :
    Plain (function_branch H token stack s) s := by
  unfold function_branch
  split
  · exact plain_throw _ _
  · repeat (first | exact plain_throw _ _ | exact plain_ok _ _ _ | apply plain_ite)

theorem factorial_plain (a : ℚ) (rest : List ℚ) (s : Session) :
    Plain (if a < 0 then throw_invalid "Factorial requires non-negative integer" s
      else
        match static_cast_int a with
        | none => undefined_cast s
        | some n =>
          if a ≠ (n : ℚ) then throw_invalid "Factorial requires non-negative integer" s
          else
            match factorial_loop n n.toNat 2 1 with
            | .error f => (.error f, s)
            | .ok result => (.ok (result :: rest), add_to_history "!" s)) s := by
  apply plain_ite (plain_throw _ _)
  cases static_cast_int a with
  | none => exact Or.inl ⟨_, rfl⟩
  | some n =>
    apply plain_ite (plain_throw _ _)
    cases factorial_loop n n.toNat 2 1 with
    | error f => exact Or.inl ⟨_, rfl⟩
    | ok result => exact plain_ok _ _ _

theorem operator_branch_plain (H : Host) (token : String) (stack : List ℚ) (s : Session) :
    Plain (operator_branch H token stack s) s := by
  unfold operator_branch
  apply plain_ite
  · cases stack <;> first | exact plain_throw _ _ | exact plain_ok _ _ _
  apply plain_ite
  · cases stack <;> first | exact plain_throw _ _ | exact plain_ok _ _ _
  apply plain_ite
  · cases stack <;> first | exact plain_throw _ _ | exact plain_ok _ _ _
  apply plain_ite
  · cases stack with
    | nil => exact plain_throw _ _
    | cons a rest => exact factorial_plain a rest s
  apply plain_ite (binary_branch_plain H token stack s)
  apply plain_ite (function_branch_plain H token stack s)
  repeat (first | exact plain_throw _ _ | exact plain_ok _ _ _ | apply plain_ite)

/-- Every token has one of the five effects on the session. -/
theorem step_effect (H : Host) (token : String) (stack : List ℚ) (s : Session) :
    StepEffect token stack s (step H token stack s) := by
  unfold step
  by_cases h1 : is_number token = true
  · rw [if_pos h1]
    cases stod token with
    | error f => exact Or.inl (Or.inl ⟨_, rfl⟩)
    | ok v => exact Or.inl (plain_ok _ _ _)
  rw [if_neg h1]
  by_cases h2 : token = "pi"
  · rw [if_pos h2]; exact Or.inl (plain_ok _ _ _)
  rw [if_neg h2]
  by_cases h3 : token = "e"
  · rw [if_pos h3]; exact Or.inl (plain_ok _ _ _)
  rw [if_neg h3]
  by_cases h4 : (s.vars token).isSome = true
  · rw [if_pos h4]; exact Or.inl (plain_ok _ _ _)
  rw [if_neg h4]
  by_cases h5 : token = "store" ∨ token = ">"
  · rw [if_pos h5]
    match stack with
    | [] => exact Or.inl (plain_throw _ _)
    | [_] => exact Or.inl (plain_throw _ _)
    | value :: key :: rest =>
      dsimp only
      split
      · exact Or.inl (Or.inl ⟨_, rfl⟩)
      · rename_i n hn
        exact Or.inr (Or.inl ⟨value, key, rest, n, _, h5, by simpa using h4, rfl, hn, rfl⟩)
  rw [if_neg h5]
  by_cases h6 : token = "recall" ∨ token = "<"
  · rw [if_pos h6]
    cases stack with
    | nil => exact Or.inl (plain_throw _ _)
    | cons key rest =>
      dsimp only
      split
      · exact Or.inl (Or.inl ⟨_, rfl⟩)
      · exact Or.inl (plain_ite (plain_ok _ _ _) (plain_throw _ _))
  rw [if_neg h6]
  by_cases h7 : token = "rand"
  · rw [if_pos h7]; exact Or.inr (Or.inr (Or.inl ⟨_, _, rfl⟩))
  rw [if_neg h7]
  by_cases h8 : token = "dup"
  · rw [if_pos h8]
    cases stack <;> first | exact Or.inl (plain_throw _ _) | exact Or.inl (plain_ok _ _ _)
  rw [if_neg h8]
  by_cases h9 : token = "swap"
  · rw [if_pos h9]
    match stack with
    | [] => exact Or.inl (plain_throw _ _)
    | [_] => exact Or.inl (plain_throw _ _)
    | a :: b :: rest => exact Or.inl (plain_ok _ _ _)
  rw [if_neg h9]
  by_cases h10 : token = "drop"
  · rw [if_pos h10]
    cases stack <;> first | exact Or.inl (plain_throw _ _) | exact Or.inl (plain_ok _ _ _)
  rw [if_neg h10]
  by_cases h11 : token = "clear"
  · rw [if_pos h11]; exact Or.inl (plain_ok _ _ _)
  rw [if_neg h11]
  by_cases h12 : token = "undo"
  · rw [if_pos h12]
    cases hu : s.undo_stack with
    | nil => exact Or.inl (plain_throw _ _)
    | cons saved older =>
      exact Or.inr (Or.inr (Or.inr (Or.inl ⟨saved, older, _, h12, hu, rfl⟩)))
  rw [if_neg h12]
  by_cases h13 : token = "redo"
  · rw [if_pos h13]
    cases hu : s.redo_stack with
    | nil => exact Or.inl (plain_throw _ _)
    | cons saved older =>
      exact Or.inr (Or.inr (Or.inr (Or.inr ⟨saved, older, _, h13, hu, rfl⟩)))
  rw [if_neg h13]
  exact Or.inl (operator_branch_plain H token stack s)

/-- A token that fails leaves the session as it found it. -/
theorem step_error_session (H : Host) (token : String) (stack : List ℚ) (s : Session)
    (f : Fault) (h : (step H token stack s).1 = .error f) :
    (step H token stack s).2 = s := by
  rcases step_effect H token stack s with hp | hp | hp | hp | hp
  · rcases hp with ⟨f1, h1⟩ | ⟨st, op, h1⟩
    · rw [h1]
    · rw [h1] at h; simp at h
  · obtain ⟨value, key, rest, n, op, -, -, -, -, h1⟩ := hp
    rw [h1] at h; simp at h
  · obtain ⟨st, op, h1⟩ := hp
    rw [h1] at h; simp at h
  · obtain ⟨saved, older, op, -, -, h1⟩ := hp
    rw [h1] at h; simp at h
  · obtain ⟨saved, older, op, -, -, h1⟩ := hp
    rw [h1] at h; simp at h

/-- The session a call leaves is the one the loop over its tokens leaves. -/
theorem evaluate_rpn_session (H : Host) (s : Session) (expression : String) :
    (evaluate_rpn H s expression).2
      = (run_tokens H (tokenize expression) [] (save_state [] s)).2 := by
  rw [evaluate_rpn_of_tokens H s expression _ rfl]
  rcases run_tokens H (tokenize expression) [] (save_state [] s) with ⟨r, s1⟩
  cases r <;> rfl

/-- A property of sessions that every token preserves holds after the loop. -/
theorem run_tokens_invariant (H : Host) (P : Session → Prop)
    (hstep : ∀ (token : String) (stack : List ℚ) (s : Session),
      P s → P (step H token stack s).2)
    (tokens : List String) :
    ∀ (stack : List ℚ) (s : Session), P s → P (run_tokens H tokens stack s).2 := by
  induction tokens with
  | nil => intro stack s h; exact h
  | cons token rest ih =>
    intro stack s h
    have h1 := hstep token stack s h
    simp only [run_tokens]
    rcases hs : step H token stack s with ⟨r, s1⟩
    rw [hs] at h1
    cases r with
    | error f => exact h1
    | ok stack1 => exact ih stack1 s1 h1

/-- A property of sessions that holds before the first call and that `save_state`
and every token preserve holds in every reachable session. -/
theorem reachable_invariant (H : Host) (P : Session → Prop) (h0 : P Session.fresh)
    (hsave : ∀ s : Session, P s → P (save_state [] s))
    (hstep : ∀ (token : String) (stack : List ℚ) (s : Session),
      P s → P (step H token stack s).2)
    (s : Session) (hr : Reachable H s) : P s := by
  induction hr with
  | fresh => exact h0
  | call s expression _ ih =>
    rw [evaluate_rpn_session]
    exact run_tokens_invariant H P hstep _ _ _ (hsave s ih)

/-! ## The history -/

/-- What `add_to_history` does to the history: the new description is put
first; the last entry is dropped when ten or more were there. -/
theorem add_to_history_deque (op : String) (s : Session) :
    (s.history_deque.length < 10 →
        (add_to_history op s).history_deque = op :: s.history_deque)
    ∧ (10 ≤ s.history_deque.length →
        (add_to_history op s).history_deque = op :: s.history_deque.dropLast) := by
  refine ⟨?_, ?_⟩
  · intro h
    have : ¬ (s.history_deque.length + 1 > HISTORY_SIZE) := by unfold HISTORY_SIZE; omega
    simp [add_to_history, this]
  · intro h
    have h1 : s.history_deque.length + 1 > HISTORY_SIZE := by unfold HISTORY_SIZE; omega
    cases hh : s.history_deque with
    | nil => rw [hh] at h; simp at h
    | cons x xs =>
      rw [hh] at h1
      simp only [add_to_history, hh, List.length_cons] at h1 ⊢
      rw [if_pos h1]
      rfl

theorem add_to_history_length (op : String) (s : Session)
    (h : s.history_deque.length ≤ 10) : (add_to_history op s).history_deque.length ≤ 10 := by
  by_cases h10 : s.history_deque.length < 10
  · rw [(add_to_history_deque op s).1 h10]; simp; omega
  · rw [(add_to_history_deque op s).2 (by omega)]; simp; omega

theorem step_history_length (H : Host) (token : String) (stack : List ℚ) (s : Session)
    (h : s.history_deque.length ≤ 10) :
    (step H token stack s).2.history_deque.length ≤ 10 := by
  rcases step_effect H token stack s with hp | hp | hp | hp | hp
  · rcases hp with ⟨f1, h1⟩ | ⟨st, op, h1⟩
    · rw [h1]; exact h
    · rw [h1]; exact add_to_history_length op s h
  · obtain ⟨value, key, rest, n, op, -, -, -, -, h1⟩ := hp
    rw [h1]; exact add_to_history_length op _ h
  · obtain ⟨st, op, h1⟩ := hp
    rw [h1]; exact add_to_history_length op _ h
  · obtain ⟨saved, older, op, -, -, h1⟩ := hp
    rw [h1]; exact add_to_history_length op _ h
  · obtain ⟨saved, older, op, -, -, h1⟩ := hp
    rw [h1]; exact add_to_history_length op _ h

/-- C11. The history never holds more than 10 entries: in every session
reachable from the initial one by calls of `evaluate_rpn`, returning or
throwing, the length of `history_deque` is at most 10; and `add_to_history`
puts the new description first and drops the last entry when the length would
exceed 10. -/
theorem history_bounded (H : Host) (s : Session) (hr : Reachable H s) :
    s.history_deque.length ≤ 10
    ∧ ∀ (op : String) (s1 : Session),
        (s1.history_deque.length < 10 →
          (add_to_history op s1).history_deque = op :: s1.history_deque)
        ∧ (10 ≤ s1.history_deque.length →
          (add_to_history op s1).history_deque = op :: s1.history_deque.dropLast) := by
  refine ⟨?_, fun op s1 => add_to_history_deque op s1⟩
  exact reachable_invariant H (fun s => s.history_deque.length ≤ 10)
    (by simp [Session.fresh]) (fun s h => h) (step_history_length H) s hr

/-- C11 after a call of twelve tokens, which throws. -/
theorem history_bounded_witness :
    (evaluate_rpn Host.sample Session.fresh
        "1 2 3 4 5 6 7 8 9 10 11 12").2.history_deque.length ≤ 10 :=
  (history_bounded Host.sample _ (Reachable.call Session.fresh
    "1 2 3 4 5 6 7 8 9 10 11 12" Reachable.fresh)).1

/-! ## The variable store -/

/-- A token leaves the variables as they are, unless it is a `store` or `>`
handled by the branch of line 103, which assigns one variable. -/
theorem step_vars (H : Host) (token : String) (stack : List ℚ) (s : Session) :
    (step H token stack s).2.vars = s.vars
    ∨ ∃ (value key : ℚ) (rest : List ℚ) (n : Int),
        (token = "store" ∨ token = ">") ∧ (s.vars token).isSome = false
        ∧ stack = value :: key :: rest ∧ static_cast_int key = some n
        ∧ (step H token stack s).1 = .ok rest
        ∧ (step H token stack s).2.vars = (assign (to_string n) value s).vars := by
  rcases step_effect H token stack s with hp | hp | hp | hp | hp
  · rcases hp with ⟨f1, h1⟩ | ⟨st, op, h1⟩
    · left; rw [h1]
    · left; rw [h1]; rfl
  · obtain ⟨value, key, rest, n, op, h1, h2, h3, h4, h5⟩ := hp
    right
    exact ⟨value, key, rest, n, h1, h2, h3, h4, by rw [h5], by rw [h5]; rfl⟩
  · obtain ⟨st, op, h1⟩ := hp
    left; rw [h1]; rfl
  · obtain ⟨saved, older, op, -, -, h1⟩ := hp
    left; rw [h1]; rfl
  · obtain ⟨saved, older, op, -, -, h1⟩ := hp
    left; rw [h1]; rfl

/-- A key of the variable store stays a key. -/
theorem step_keeps_key (H : Host) (k : String) (token : String) (stack : List ℚ)
    (s : Session) (h : (s.vars k).isSome = true) :
    ((step H token stack s).2.vars k).isSome = true := by
  rcases step_vars H token stack s with h1 | ⟨value, key, rest, n, -, -, -, -, -, h1⟩
  · rw [h1]; exact h
  · rw [h1]
    by_cases hk : k = to_string n
    · simp [assign, hk]
    · simp [assign, hk, h]

/-- The value of a variable changes in the loop only at a `store` or `>` that
assigns to its name. -/
theorem run_tokens_vars (H : Host) (k : String) (v : ℚ) (tokens : List String) :
    ∀ (stack : List ℚ) (s : Session), s.vars k = some v →
      (run_tokens H tokens stack s).2.vars k ≠ some v →
      ∃ (before : List String) (token : String) (after : List String)
        (value key : ℚ) (rest : List ℚ) (n : Int) (s1 : Session),
        tokens = before ++ token :: after ∧ (token = "store" ∨ token = ">")
        ∧ run_tokens H before stack s = (.ok (value :: key :: rest), s1)
        ∧ (s1.vars token).isSome = false
        ∧ static_cast_int key = some n ∧ to_string n = k := by
  induction tokens with
  | nil => intro stack s h hne; exact absurd h hne
  | cons token rest ih =>
    intro stack s h hne
    rcases step_vars H token stack s with hv | ⟨value, key, rest1, n, h1, h2, h3, h4, h5, h6⟩
    · rcases hs : step H token stack s with ⟨r, s1⟩
      rw [hs] at hv
      simp only at hv
      simp only [run_tokens, hs] at hne
      cases r with
      | error f =>
        simp only at hne
        rw [hv] at hne
        exact absurd h hne
      | ok stack1 =>
        simp only at hne
        obtain ⟨before, tok, after, value, key, rest1, n, s2, e1, e2, e3, e4, e5, e6⟩ :=
          ih stack1 s1 (by rw [hv]; exact h) hne
        refine ⟨token :: before, tok, after, value, key, rest1, n, s2, ?_, e2, ?_, e4, e5, e6⟩
        · rw [e1]; rfl
        · simp only [run_tokens, hs]; exact e3
    · by_cases hk : k = to_string n
      · exact ⟨[], token, rest, value, key, rest1, n, s, rfl, h1, by rw [h3]; rfl, h2, h4,
          hk.symm⟩
      · rcases hs : step H token stack s with ⟨r, s1⟩
        rw [hs] at h5 h6
        simp only at h5 h6
        subst h5
        simp only [run_tokens, hs] at hne
        have hk1 : s1.vars k = some v := by
          rw [h6]; simp [assign, hk, h]
        obtain ⟨before, tok, after, value2, key2, rest2, n2, s2, e1, e2, e3, e4, e5, e6⟩ :=
          ih rest1 s1 hk1 hne
        refine ⟨token :: before, tok, after, value2, key2, rest2, n2, s2, ?_, e2, ?_, e4, e5,
          e6⟩
        · rw [e1]; rfl
        · simp only [run_tokens, hs]; exact e3

/-- C12. The variable store never loses entries: for every session and every
expression, whether `evaluate_rpn` returns or throws, a key `k` present before
the call is still present after it, and its value is the one it had unless a
token `store` or `>` of the expression, reached without error and handled by
the branch of `store`, assigned to the name `k`. -/
theorem vars_never_lost (H : Host) (s : Session) (expression : String) (k : String)
    (v : ℚ) (h : s.vars k = some v) :
    ((evaluate_rpn H s expression).2.vars k).isSome = true
    ∧ ((evaluate_rpn H s expression).2.vars k ≠ some v →
      ∃ (before : List String) (token : String) (after : List String)
        (value key : ℚ) (rest : List ℚ) (n : Int) (s1 : Session),
        tokenize expression = before ++ token :: after ∧ (token = "store" ∨ token = ">")
        ∧ run_tokens H before [] (save_state [] s) = (.ok (value :: key :: rest), s1)
        ∧ (s1.vars token).isSome = false
        ∧ static_cast_int key = some n ∧ to_string n = k) := by
  rw [evaluate_rpn_session]
  refine ⟨?_, ?_⟩
  · exact run_tokens_invariant H (fun s => (s.vars k).isSome = true)
      (fun token stack s hs => step_keeps_key H k token stack s hs) _ _ _
      (by show (s.vars k).isSome = true; rw [h]; rfl)
  · exact run_tokens_vars H k v _ [] (save_state [] s) h

/-- C12 on a session where the variable `7` holds 1 and the call `7 2 store`. -/
theorem vars_never_lost_witness :
    ((evaluate_rpn Host.sample (assign "7" 1 Session.fresh) "7 2 store").2.vars "7").isSome
      = true :=
  (vars_never_lost Host.sample (assign "7" 1 Session.fresh) "7 2 store" "7" 1
    (by simp [assign])).1

/-! ## Base formatting -/

theorem hex_char_bit (n : Nat) :
    (if Int.tmod (n : Int) 2 = 0 then '0' else '1') = hex_char (n % 2) := by
  have e : Int.tmod (n : Int) 2 = ((n % 2 : Nat) : Int) := (Int.ofNat_tmod n 2).symm
  rw [e]
  rcases Nat.mod_two_eq_zero_or_one n with h | h <;> rw [h] <;> decide

theorem hex_char_digit (n : Nat) :
    hex_digits.getD (Int.tmod (n : Int) 16).toNat '0' = hex_char (n % 16) := by
  have e : Int.tmod (n : Int) 16 = ((n % 16 : Nat) : Int) := (Int.ofNat_tmod n 16).symm
  rw [e, Int.toNat_natCast]
  have h : n % 16 < 16 := Nat.mod_lt _ (by norm_num)
  generalize n % 16 = d at h
  interval_cases d <;> decide

/-- The loop of `number_to_bin` puts the binary digits of `n`, most significant
first, in front of the text. -/
theorem number_to_bin_loop_spec (fuel : Nat) :
    ∀ (n : Nat) (acc : List Char), n ≤ fuel →
      number_to_bin_loop fuel (n : Int) acc
        = (Nat.digits 2 n).reverse.map hex_char ++ acc := by
  induction fuel with
  | zero =>
    intro n acc h
    have : n = 0 := by omega
    subst this
    simp [number_to_bin_loop]
  | succ fuel ih =>
    intro n acc h
    by_cases hn : n = 0
    · subst hn; simp [number_to_bin_loop]
    · have hpos : (n : Int) > 0 := by omega
      have hd : Int.tdiv (n : Int) 2 = ((n / 2 : Nat) : Int) := (Int.ofNat_tdiv n 2).symm
      simp only [number_to_bin_loop, hpos, if_true, hd, hex_char_bit]
      have e : Nat.digits 2 n = n % 2 :: Nat.digits 2 (n / 2) :=
        Nat.digits_def' (by norm_num) (by omega)
      rw [ih (n / 2) _ (by omega), e]
      simp

/-- The loop of `number_to_hex` puts the base-16 digits of `n`, most
significant first, in front of the text. -/
theorem number_to_hex_loop_spec (fuel : Nat) :
    ∀ (n : Nat) (acc : List Char), n ≤ fuel →
      number_to_hex_loop fuel (n : Int) acc
        = (Nat.digits 16 n).reverse.map hex_char ++ acc := by
  induction fuel with
  | zero =>
    intro n acc h
    have : n = 0 := by omega
    subst this
    simp [number_to_hex_loop]
  | succ fuel ih =>
    intro n acc h
    by_cases hn : n = 0
    · subst hn; simp [number_to_hex_loop]
    · have hpos : (n : Int) > 0 := by omega
      have hd : Int.tdiv (n : Int) 16 = ((n / 16 : Nat) : Int) := (Int.ofNat_tdiv n 16).symm
      simp only [number_to_hex_loop, hpos, if_true, hd, hex_char_digit]
      have e : Nat.digits 16 n = n % 16 :: Nat.digits 16 (n / 16) :=
        Nat.digits_def' (by norm_num) (by omega)
      rw [ih (n / 16) _ (by omega), e]
      simp

theorem number_to_bin_nat (n : Nat) (hpos : 0 < n) (hmax : (n : Int) ≤ INT_MAX) :
    number_to_bin (n : ℚ) = some (base_text 2 n) := by
  have hc : static_cast_int (n : ℚ) = some (n : Int) := by
    simpa using static_cast_int_intCast (n : Int) (by unfold INT_MIN; omega) hmax
  have h0 : ¬ ((n : Int) = 0) := by omega
  simp only [number_to_bin, hc, h0, if_false, Int.toNat_natCast]
  rw [number_to_bin_loop_spec n n [] (le_refl _)]
  simp [base_text]

theorem number_to_hex_nat (n : Nat) (hpos : 0 < n) (hmax : (n : Int) ≤ INT_MAX) :
    number_to_hex (n : ℚ) = some (base_text 16 n) := by
  have hc : static_cast_int (n : ℚ) = some (n : Int) := by
    simpa using static_cast_int_intCast (n : Int) (by unfold INT_MIN; omega) hmax
  have h0 : ¬ ((n : Int) = 0) := by omega
  simp only [number_to_hex, hc, h0, if_false, Int.toNat_natCast]
  rw [number_to_hex_loop_spec n n [] (le_refl _)]
  simp [base_text]

theorem char_digit_hex_char (d : Nat) (h : d < 16) : char_digit (hex_char d) = d := by
  interval_cases d <;> decide

theorem hex_char_ne_zero (d : Nat) (h0 : d ≠ 0) (h : d < 16) : hex_char d ≠ '0' := by
  interval_cases d <;> first | exact absurd rfl h0 | decide

theorem hex_char_mem (d : Nat) (h : d < 16) : hex_char d ∈ hex_digits := by
  interval_cases d <;> decide

/-- The canonical rendering of a positive number in a base from 2 to 16 has no
leading zero, uses the digits below the base, and reads back as the number. -/
theorem base_text_spec (b n : Nat) (hb : 1 < b) (hb16 : b ≤ 16) (hpos : 0 < n) :
    (base_text b n).data.head? ≠ some '0'
    ∧ (∀ c ∈ (base_text b n).data, ∃ d, d < b ∧ c = hex_char d)
    ∧ read_base b (base_text b n) = n := by
  have hlt : ∀ d ∈ Nat.digits b n, d < b := fun d hd => Nat.digits_lt_base hb hd
  refine ⟨?_, ?_, ?_⟩
  · have hne : Nat.digits b n ≠ [] := by
      rw [Nat.digits_def' hb hpos]; simp
    have hlast := Nat.getLast_digit_ne_zero b (Nat.pos_iff_ne_zero.1 hpos)
    have hmem : (Nat.digits b n).getLast hne ∈ Nat.digits b n := List.getLast_mem hne
    have hh : ((Nat.digits b n).reverse.map hex_char).head?
        = some (hex_char ((Nat.digits b n).getLast hne)) := by
      rw [List.head?_map, List.head?_reverse, List.getLast?_eq_getLast _ hne]
      rfl
    show ((Nat.digits b n).reverse.map hex_char).head? ≠ some '0'
    rw [hh]
    intro h
    simp only [Option.some.injEq] at h
    exact hex_char_ne_zero _ hlast (by have := hlt _ hmem; omega) h
  · intro c hc
    have hc1 : c ∈ (Nat.digits b n).reverse.map hex_char := hc
    simp only [List.mem_map, List.mem_reverse] at hc1
    obtain ⟨d, hd, rfl⟩ := hc1
    exact ⟨d, hlt d hd, rfl⟩
  · show Nat.ofDigits b (((Nat.digits b n).reverse.map hex_char).reverse.map char_digit) = n
    have : ((Nat.digits b n).reverse.map hex_char).reverse.map char_digit = Nat.digits b n := by
      rw [← List.map_reverse, List.reverse_reverse, List.map_map]
      conv_rhs => rw [← List.map_id (Nat.digits b n)]
      apply List.map_congr_left
      intro d hd
      have := hlt d hd
      simp [char_digit_hex_char d (by omega)]
    rw [this, Nat.ofDigits_digits]

/-- C13. Base formatting is the canonical positional rendering: for every
positive integer `n` in `int` range, `number_to_bin n` is the text of the
binary digits of `n` and `number_to_hex n` the text of its base-16 digits
`0`-`9`, `A`-`F`, most significant first, without leading zero, so that
reading the text back in base 2, respectively 16, gives `n`; for 0 both return
`0`. -/
theorem base_formatting (n : Nat) (hpos : 0 < n) (hmax : (n : Int) ≤ INT_MAX) :
    number_to_bin (n : ℚ) = some (base_text 2 n)
    ∧ number_to_hex (n : ℚ) = some (base_text 16 n)
    ∧ (base_text 2 n).data.head? ≠ some '0'
    ∧ (base_text 16 n).data.head? ≠ some '0'
    ∧ (∀ c ∈ (base_text 2 n).data, c = '0' ∨ c = '1')
    ∧ (∀ c ∈ (base_text 16 n).data, c ∈ hex_digits)
    ∧ read_base 2 (base_text 2 n) = n
    ∧ read_base 16 (base_text 16 n) = n
    ∧ number_to_bin 0 = some "0" ∧ number_to_hex 0 = some "0" := by
  obtain ⟨b1, b2, b3⟩ := base_text_spec 2 n (by norm_num) (by norm_num) hpos
  obtain ⟨x1, x2, x3⟩ := base_text_spec 16 n (by norm_num) (by norm_num) hpos
  have c0 : static_cast_int (0 : ℚ) = some 0 := by
    simpa using static_cast_int_intCast 0 (by decide) (by decide)
  refine ⟨number_to_bin_nat n hpos hmax, number_to_hex_nat n hpos hmax, b1, x1, ?_, ?_, b3,
    x3, ?_, ?_⟩
  · intro c hc
    obtain ⟨d, hd, rfl⟩ := b2 c hc
    interval_cases d
    · left; decide
    · right; decide
  · intro c hc
    obtain ⟨d, hd, rfl⟩ := x2 c hc
    exact hex_char_mem d hd
  · simp [number_to_bin, c0]
  · simp [number_to_hex, c0]

/-- C13 on 10 (`1010`) and 255 (`FF`). -/
theorem base_formatting_witness :
    number_to_bin ((10 : Nat) : ℚ) = some "1010"
    ∧ number_to_hex ((255 : Nat) : ℚ) = some "FF" := by
  have h1 := (base_formatting 10 (by norm_num) (by decide)).1
  have h2 := (base_formatting 255 (by norm_num) (by decide)).2.1
  have e1 : base_text 2 10 = "1010" := by
    simp [base_text, hex_char]
  have e2 : base_text 16 255 = "FF" := by
    simp [base_text, hex_char]
  rw [e1] at h1
  rw [e2] at h2
  exact ⟨h1, h2⟩

theorem number_to_bin_loop_nonpos (fuel : Nat) (n : Int) (acc : List Char) (h : n ≤ 0) :
    number_to_bin_loop fuel n acc = acc := by
  cases fuel with
  | zero => rfl
  | succ fuel =>
    have : ¬ n > 0 := by omega
    simp [number_to_bin_loop, this]

theorem number_to_hex_loop_nonpos (fuel : Nat) (n : Int) (acc : List Char) (h : n ≤ 0) :
    number_to_hex_loop fuel n acc = acc := by
  cases fuel with
  | zero => rfl
  | succ fuel =>
    have : ¬ n > 0 := by omega
    simp [number_to_hex_loop, this]

/-- C14 as stated fails: on -1 the formatters do not return `0`, they return
the empty text. -/
theorem negative_not_zero :
    number_to_bin (-1) = some "" ∧ number_to_hex (-1) = some ""
    ∧ number_to_bin (-1) ≠ some "0" ∧ number_to_hex (-1) ≠ some "0" := by
  have c : static_cast_int (-1 : ℚ) = some (-1) := by
    simpa using static_cast_int_intCast (-1) (by decide) (by decide)
  have hb : number_to_bin (-1) = some "" := by
    simp [number_to_bin, c, number_to_bin_loop_nonpos]
  have hx : number_to_hex (-1) = some "" := by
    simp [number_to_hex, c, number_to_hex_loop_nonpos]
  refine ⟨hb, hx, ?_, ?_⟩
  · rw [hb]; decide
  · rw [hx]; decide

/-- C14, amended. On negative input the formatters return the empty text: for
every `x` whose conversion to `int` is a negative `n`, `number_to_bin x` and
`number_to_hex x` are the empty text (the test `n == 0` fails and the loop
`while (n > 0)` does not run). -/
theorem negative_gives_empty (x : ℚ) (n : Int) (hc : static_cast_int x = some n)
    (hneg : n < 0) :
    number_to_bin x = some "" ∧ number_to_hex x = some "" := by
  have h0 : ¬ n = 0 := by omega
  refine ⟨?_, ?_⟩
  · simp only [number_to_bin, hc, h0, if_false]
    rw [number_to_bin_loop_nonpos _ _ _ (by omega)]
  · simp only [number_to_hex, hc, h0, if_false]
    rw [number_to_hex_loop_nonpos _ _ _ (by omega)]

/-- C14, amended, on -5. -/
theorem negative_gives_empty_witness :
    number_to_bin (-5) = some "" ∧ number_to_hex (-5) = some "" :=
  negative_gives_empty (-5) (-5)
    (by simpa using static_cast_int_intCast (-5) (by decide) (by decide)) (by decide)

/-! ## The empty expression -/

theorem isspace_ne_hash {c : Char} (h : isspace c = true) : c ≠ '#' := by
  rintro rfl; revert h; decide

theorem runs_of_spaces (ws : List Char) (h : ∀ c ∈ ws, isspace c = true) : runs ws = [] := by
  rw [← runs_dropWhile, List.dropWhile_eq_nil_iff.2 h, runs_nil]

/-- A text of whitespace, possibly followed by a comment, has no token. -/
theorem tokenize_blank (expression : String) (ws rest : List Char)
    (he : expression.data = ws ++ rest) (hws : ∀ c ∈ ws, isspace c = true)
    (hrest : rest = [] ∨ rest.head? = some '#') : tokenize expression = [] := by
  rw [tokenize_eq_runs, he,
    List.takeWhile_append_of_pos (by intro c hc; simpa using isspace_ne_hash (hws c hc))]
  have : rest.takeWhile (fun c => c ≠ '#') = [] := by
    rcases hrest with rfl | hr
    · rfl
    · cases rest with
      | nil => rfl
      | cons r rs => simp at hr; subst hr; simp
  rw [this, List.append_nil]
  exact runs_of_spaces ws hws

/-- C15. An empty token sequence is legal and returns 0: for every session
and every expression without token, `evaluate_rpn` returns 0 and leaves the
variable store and the history as they were; the expressions without token
include the empty text, the texts of whitespace, and the texts whose first
character after the whitespace is `#`. -/
theorem empty_expression (H : Host) (s : Session) (expression : String) :
    (tokenize expression = [] →
      (evaluate_rpn H s expression).1 = .ok 0
      ∧ (evaluate_rpn H s expression).2.vars = s.vars
      ∧ (evaluate_rpn H s expression).2.history_deque = s.history_deque)
    ∧ (∀ ws rest : List Char, expression.data = ws ++ rest →
        (∀ c ∈ ws, isspace c = true) → (rest = [] ∨ rest.head? = some '#') →
        tokenize expression = []) := by
  refine ⟨?_, fun ws rest he hws hrest => tokenize_blank expression ws rest he hws hrest⟩
  intro ht
  rw [evaluate_rpn_of_tokens H s expression [] ht]
  simp [run_tokens, finish, too_many_operands, save_state]

/-- C15 on the empty text and on a comment after blanks. -/
theorem empty_expression_witness :
    (evaluate_rpn Host.sample Session.fresh "").1 = .ok 0
    ∧ (evaluate_rpn Host.sample Session.fresh "  # 1 2 +").1 = .ok 0 :=
  ⟨((empty_expression Host.sample Session.fresh "").1 (by decide)).1,
   ((empty_expression Host.sample Session.fresh "  # 1 2 +").1
      ((empty_expression Host.sample Session.fresh "  # 1 2 +").2 [' ', ' ']
        ['#', ' ', '1', ' ', '2', ' ', '+'] (by decide) (by decide) (by decide))).1⟩

/-! ## Undo and redo within one call -/

/-- The token `undo`, when no variable is named `undo` and the undo log is not
empty. -/
theorem step_undo (H : Host) (stack saved : List ℚ) (older : List (List ℚ)) (s : Session)
    (hvar : s.vars "undo" = none) (hu : s.undo_stack = saved :: older) :
    step H "undo" stack s
      = (.ok saved, add_to_history "undo"
          { s with redo_stack := stack :: s.redo_stack, undo_stack := older }) := by
  have hn : is_number "undo" = false := by decide
  simp [step, hn, hvar, hu]

/-- The token `redo`, when no variable is named `redo` and the redo log is not
empty. -/
theorem step_redo (H : Host) (stack saved : List ℚ) (older : List (List ℚ)) (s : Session)
    (hvar : s.vars "redo" = none) (hr : s.redo_stack = saved :: older) :
    step H "redo" stack s
      = (.ok saved, add_to_history "redo"
          { s with undo_stack := stack :: s.undo_stack, redo_stack := older }) := by
  have hn : is_number "redo" = false := by decide
  simp [step, hn, hvar, hr]

/-- The token `undo` followed by the token `redo`, in a session without a
variable named `undo` or `redo`: the stack and the two logs end as they were. -/
theorem undo_redo_tokens (H : Host) (S saved : List ℚ) (older : List (List ℚ)) (s : Session)
    (hundo : s.vars "undo" = none) (hredo : s.vars "redo" = none)
    (hu : s.undo_stack = saved :: older) :
    (step H "undo" S s).1 = .ok saved
    ∧ (step H "undo" S s).2.redo_stack = S :: s.redo_stack
    ∧ (step H "undo" S s).2.undo_stack = older
    ∧ (run_tokens H ["undo", "redo"] S s).1 = .ok S
    ∧ (run_tokens H ["undo", "redo"] S s).2.undo_stack = s.undo_stack
    ∧ (run_tokens H ["undo", "redo"] S s).2.redo_stack = s.redo_stack
    ∧ (run_tokens H ["undo", "redo"] S s).2.vars = s.vars := by
  have h1 := step_undo H S saved older s hundo hu
  have hv : (add_to_history "undo"
      { s with redo_stack := S :: s.redo_stack, undo_stack := older }).vars "redo" = none :=
    hredo
  have hr : (add_to_history "undo"
      { s with redo_stack := S :: s.redo_stack, undo_stack := older }).redo_stack
      = S :: s.redo_stack := rfl
  have h2 := step_redo H saved S s.redo_stack _ hv hr
  have hrun : run_tokens H ["undo", "redo"] S s
      = (.ok S, add_to_history "redo"
          { (add_to_history "undo"
              { s with redo_stack := S :: s.redo_stack, undo_stack := older }) with
            undo_stack := saved :: older, redo_stack := s.redo_stack }) := by
    simp only [run_tokens, h1, h2]
    rfl
  rw [h1, hrun]
  exact ⟨rfl, rfl, rfl, rfl, hu.symm, rfl, rfl⟩

/-! ## A failing call -/

/-- C17. A failing evaluation is not rolled back: for every session and every
expression, if the tokens `before` are processed without error from the
snapshot taken at the start of the call and the next token fails, then
`evaluate_rpn` ends with that fault and the session after the call, its
variable store, history, undo log and redo log, is exactly the session the
tokens `before` left. -/
theorem no_rollback (H : Host) (s s1 : Session) (expression : String)
    (before after : List String) (token : String) (stack1 : List ℚ) (f : Fault)
    (ht : tokenize expression = before ++ token :: after)
    (hrun : run_tokens H before [] (save_state [] s) = (.ok stack1, s1))
    (hfail : (step H token stack1 s1).1 = .error f) :
    evaluate_rpn H s expression = (.error f, s1)
    ∧ (evaluate_rpn H s expression).2.vars = s1.vars
    ∧ (evaluate_rpn H s expression).2.history_deque = s1.history_deque
    ∧ (evaluate_rpn H s expression).2.undo_stack = s1.undo_stack
    ∧ (evaluate_rpn H s expression).2.redo_stack = s1.redo_stack := by
  have hs := step_error_session H token stack1 s1 f hfail
  have h : evaluate_rpn H s expression = (.error f, s1) := by
    rw [evaluate_rpn_of_tokens H s expression _ ht, run_tokens_append, hrun]
    simp only [run_tokens]
    rcases hstep : step H token stack1 s1 with ⟨r, s2⟩
    rw [hstep] at hfail hs
    simp only at hfail hs
    subst hfail hs
    rfl
  rw [h]
  exact ⟨rfl, rfl, rfl, rfl, rfl⟩

/-- C17 on `1 2 store 3 0 /` in a fresh session: the call throws "Division by
zero" and the variable `1` holds 2. -/
theorem no_rollback_witness :
    (evaluate_rpn Host.sample Session.fresh "1 2 store 3 0 /").1
        = .error (.invalid_argument "Division by zero")
    ∧ (evaluate_rpn Host.sample Session.fresh "1 2 store 3 0 /").2.vars "1" = some 2 := by
  have t : tokenize "1 2 store 3 0 /"
      = [to_string 1, to_string 2, "store", to_string 3, to_string 0] ++ "/" :: [] := by
    decide
  have c1 : static_cast_int ((1 : Int) : ℚ) = some 1 :=
    static_cast_int_intCast 1 (by decide) (by decide)
  have e1 : to_string 1 = "1" := by decide
  have hrun : ∃ s1 : Session,
      run_tokens Host.sample [to_string 1, to_string 2, "store", to_string 3, to_string 0] []
        (save_state [] Session.fresh) = (.ok [((0 : Int) : ℚ), ((3 : Int) : ℚ)], s1)
      ∧ s1.vars "1" = some 2 ∧ s1.vars "/" = none := by
    have hst : ∀ s2 : Session, s2.vars "store" = none →
        step Host.sample "store" [((2 : Int) : ℚ), ((1 : Int) : ℚ)] s2
          = (.ok [], add_to_history
              ("store " ++ to_string 1 ++ " = " ++ Host.sample.to_string_double ((2 : Int) : ℚ))
              (assign (to_string 1) ((2 : Int) : ℚ) s2)) :=
      fun s2 h2 => step_store Host.sample _ _ [] s2 1 h2 c1
    have h2 : (add_to_history ("push " ++ to_string 2)
        (add_to_history ("push " ++ to_string 1) (save_state [] Session.fresh))).vars "store"
        = none := rfl
    refine ⟨add_to_history ("push " ++ to_string 0) (add_to_history ("push " ++ to_string 3)
      (add_to_history
        ("store " ++ to_string 1 ++ " = " ++ Host.sample.to_string_double ((2 : Int) : ℚ))
        (assign (to_string 1) ((2 : Int) : ℚ)
          (add_to_history ("push " ++ to_string 2)
            (add_to_history ("push " ++ to_string 1) (save_state [] Session.fresh)))))),
      ?_, ?_, ?_⟩
    · simp only [run_tokens, step_push_int]
      rw [hst _ h2]
    · simp [assign, e1]
    · simp [assign, e1, Session.fresh, save_state]
  obtain ⟨s1, h1, hv, hd⟩ := hrun
  have hfail : (step Host.sample "/" [((0 : Int) : ℚ), ((3 : Int) : ℚ)] s1).1
      = .error (.invalid_argument "Division by zero") := by
    rw [step_divide Host.sample _ _ [] s1 hd]
    simp
  have h := no_rollback Host.sample Session.fresh s1 "1 2 store 3 0 /" _ [] "/" _ _ t h1 hfail
  refine ⟨by rw [h.1], ?_⟩
  rw [h.2.1]
  exact hv

/-! ## The keys of the variable store -/

theorem static_cast_int_range (a : ℚ) (n : Int) (h : static_cast_int a = some n) :
    INT_MIN ≤ n ∧ n ≤ INT_MAX := by
  unfold static_cast_int at h
  simp only at h
  split_ifs at h with hr
  simp only [Option.some.injEq] at h
  subst h
  exact hr

/-- The shape of the rendering of an `int`: an optional `-`, then one or more
digits. -/
theorem to_string_shape (n : Int) :
    ∃ sign digits : List Char, (to_string n).data = sign ++ digits
      ∧ (sign = [] ∨ sign = ['-']) ∧ digits ≠ [] ∧ ∀ c ∈ digits, isdigit c = true := by
  obtain ⟨h1, h2, _⟩ := nat_digits_spec (n.natAbs + 1) n.natAbs (Nat.lt_succ_self _)
  refine ⟨(if n < 0 then Sign.minus else Sign.absent).chars,
    nat_digits (n.natAbs + 1) n.natAbs, ?_, ?_, h1, h2⟩
  · rw [to_string_eq]
  · by_cases h : n < 0 <;> simp [h, Sign.chars]

/-- The invariant of the variable store: every key is the rendering of an
`int`. -/
theorem step_int_keys (H : Host) (token : String) (stack : List ℚ) (s : Session)
    (h : ∀ k, (s.vars k).isSome = true → IntKey k) :
    ∀ k, ((step H token stack s).2.vars k).isSome = true → IntKey k := by
  intro k hk
  rcases step_vars H token stack s with h1 | ⟨value, key, rest, n, -, -, -, hc, -, h1⟩
  · rw [h1] at hk; exact h k hk
  · rw [h1] at hk
    by_cases hkn : k = to_string n
    · obtain ⟨hlo, hhi⟩ := static_cast_int_range key n hc
      exact ⟨n, hlo, hhi, hkn⟩
    · simp only [assign, hkn, if_false] at hk
      exact h k hk

theorem reachable_int_keys (H : Host) (s : Session) (hr : Reachable H s) :
    ∀ k, (s.vars k).isSome = true → IntKey k :=
  reachable_invariant H (fun s => ∀ k, (s.vars k).isSome = true → IntKey k)
    (by intro k hk; simp [Session.fresh] at hk) (fun s h => h)
    (fun token stack s h => step_int_keys H token stack s h) s hr

theorem int_key_is_number (k : String) (h : IntKey k) : is_number k = true := by
  obtain ⟨n, -, -, rfl⟩ := h
  exact is_number_to_string n

theorem operator_names_not_numbers : ∀ name ∈ operator_names, is_number name = false := by
  decide

/-- C19. In every session reachable from the initial one, every key of the
variable store is the decimal rendering of an `int`, an optional `-` followed
by one or more digits, hence is accepted by `is_number`; so no token that is
not a number is a key, neither in the session nor in any session a call passes
through: the branch of the variable lookup is never taken, and no variable
shadows an operator or function name. -/
theorem keys_are_numbers (H : Host) (s : Session) (hr : Reachable H s) :
    (∀ k, (s.vars k).isSome = true →
      (∃ n : Int, INT_MIN ≤ n ∧ n ≤ INT_MAX ∧ k = to_string n)
      ∧ (∃ sign digits : List Char, k.data = sign ++ digits
          ∧ (sign = [] ∨ sign = ['-']) ∧ digits ≠ [] ∧ ∀ c ∈ digits, isdigit c = true)
      ∧ is_number k = true)
    ∧ (∀ (expression : String) (before after : List String) (token : String)
        (stack1 : List ℚ) (s1 : Session),
        tokenize expression = before ++ token :: after →
        run_tokens H before [] (save_state [] s) = (.ok stack1, s1) →
        is_number token = false → (s1.vars token).isSome = false)
    ∧ (∀ name ∈ operator_names, s.vars name = none) := by
  have hkeys := reachable_int_keys H s hr
  refine ⟨?_, ?_, ?_⟩
  · intro k hk
    have hik := hkeys k hk
    refine ⟨hik, ?_, int_key_is_number k hik⟩
    obtain ⟨n, -, -, rfl⟩ := hik
    exact to_string_shape n
  · intro expression before after token stack1 s1 _ hrun hnum
    have hinv := run_tokens_invariant H (fun s => ∀ k, (s.vars k).isSome = true → IntKey k)
      (fun token stack s h => step_int_keys H token stack s h) before [] (save_state [] s)
      hkeys
    rw [hrun] at hinv
    cases hs : (s1.vars token).isSome with
    | false => rfl
    | true =>
      have := int_key_is_number token (hinv token hs)
      rw [hnum] at this
      exact absurd this (by decide)
  · intro name hname
    cases hs : s.vars name with
    | none => rfl
    | some v =>
      have hnum := int_key_is_number name (hkeys name (by rw [hs]; rfl))
      rw [operator_names_not_numbers name hname] at hnum
      exact absurd hnum (by decide)

/-- C19 on the session left by `7 2 store` in a fresh session: no variable is
named `+`. -/
theorem keys_are_numbers_witness :
    (evaluate_rpn Host.sample Session.fresh "7 2 store").2.vars "+" = none :=
  (keys_are_numbers Host.sample _
    (Reachable.call Session.fresh "7 2 store" Reachable.fresh)).2.2 "+" (by decide)

/-! ## Redo at the start of a call -/

/-- A token other than `undo` leaves an empty redo log empty. -/
theorem step_redo_empty (H : Host) (token : String) (stack : List ℚ) (s : Session)
    (htok : token ≠ "undo") (h : s.redo_stack = []) :
    (step H token stack s).2.redo_stack = [] := by
  rcases step_effect H token stack s with hp | hp | hp | hp | hp
  · rcases hp with ⟨f1, h1⟩ | ⟨st, op, h1⟩
    · rw [h1]; exact h
    · rw [h1]; exact h
  · obtain ⟨value, key, rest, n, op, -, -, -, -, h1⟩ := hp
    rw [h1]; exact h
  · obtain ⟨st, op, h1⟩ := hp
    rw [h1]; exact h
  · obtain ⟨saved, older, op, hu, -, -⟩ := hp
    exact absurd hu htok
  · obtain ⟨saved, older, op, -, hr, -⟩ := hp
    rw [h] at hr; simp at hr

/-- Tokens without `undo` leave an empty redo log empty. -/
theorem run_tokens_redo_empty (H : Host) (tokens : List String) :
    ∀ (stack : List ℚ) (s : Session), "undo" ∉ tokens → s.redo_stack = [] →
      (run_tokens H tokens stack s).2.redo_stack = [] := by
  induction tokens with
  | nil => intro stack s _ h; exact h
  | cons token rest ih =>
    intro stack s hmem h
    have htok : token ≠ "undo" := fun e => hmem (by rw [e]; exact List.mem_cons_self _ _)
    have hrest : "undo" ∉ rest := fun e => hmem (List.mem_cons_of_mem _ e)
    have h1 := step_redo_empty H token stack s htok h
    simp only [run_tokens]
    rcases hs : step H token stack s with ⟨r, s1⟩
    rw [hs] at h1
    cases r with
    | error f => exact h1
    | ok stack1 => exact ih stack1 s1 hrest h1

/-- The token `redo` on an empty redo log, when no variable is named `redo`. -/
theorem step_redo_nothing (H : Host) (stack : List ℚ) (s : Session)
    (hvar : s.vars "redo" = none) (hr : s.redo_stack = []) :
    step H "redo" stack s = (.error (.invalid_argument "Nothing to redo"), s) := by
  have hn : is_number "redo" = false := by decide
  simp [step, hn, hvar, hr, throw_invalid]

/-- C20. For every reachable session and every expression whose first token is
`redo`, `evaluate_rpn` throws "Nothing to redo": the snapshot at the start of
the call empties the redo log. A token `redo` succeeds only after a token
`undo` earlier in the same expression. -/
theorem redo_first_fails (H : Host) (s : Session) (hr : Reachable H s)
    (expression : String) :
    (∀ rest : List String, tokenize expression = "redo" :: rest →
      (evaluate_rpn H s expression).1 = .error (.invalid_argument "Nothing to redo"))
    ∧ (∀ (before after : List String) (stack1 stack2 : List ℚ) (s1 : Session),
        tokenize expression = before ++ "redo" :: after →
        run_tokens H before [] (save_state [] s) = (.ok stack1, s1) →
        (step H "redo" stack1 s1).1 = .ok stack2 → "undo" ∈ before) := by
  have hkeys := reachable_int_keys H s hr
  have hnone : ∀ s1 : Session, (∀ k, (s1.vars k).isSome = true → IntKey k) →
      s1.vars "redo" = none := by
    intro s1 h1
    cases hs : s1.vars "redo" with
    | none => rfl
    | some v =>
      have := int_key_is_number "redo" (h1 "redo" (by rw [hs]; rfl))
      exact absurd this (by decide)
  refine ⟨?_, ?_⟩
  · intro rest ht
    rw [evaluate_rpn_of_tokens H s expression _ ht]
    simp only [run_tokens]
    rw [step_redo_nothing H [] (save_state [] s) (hnone s hkeys) rfl]
  · intro before after stack1 stack2 s1 _ hrun hok
    by_contra hmem
    have hempty := run_tokens_redo_empty H before [] (save_state [] s) hmem rfl
    have hinv := run_tokens_invariant H (fun s => ∀ k, (s.vars k).isSome = true → IntKey k)
      (fun token stack s h => step_int_keys H token stack s h) before [] (save_state [] s)
      hkeys
    rw [hrun] at hempty hinv
    rw [step_redo_nothing H stack1 s1 (hnone s1 hinv) hempty] at hok
    simp at hok

/-- C20 on `redo 5` after the call `10` of a fresh session. -/
theorem redo_first_fails_witness :
    (evaluate_rpn Host.sample (evaluate_rpn Host.sample Session.fresh "10").2 "redo 5").1
      = .error (.invalid_argument "Nothing to redo") :=
  (redo_first_fails Host.sample _ (Reachable.call Session.fresh "10" Reachable.fresh)
    "redo 5").1 ["5"] (by decide)

/-! ## No `top()` or `pop()` on an empty container -/

theorem pop_all_spec {α : Type} (fuel : Nat) :
    ∀ st : List α, st.length ≤ fuel → pop_all fuel st = some [] := by
  induction fuel with
  | zero =>
    intro st h
    have : st = [] := List.length_eq_zero.1 (by omega)
    subst this; rfl
  | succ fuel ih =>
    intro st h
    cases st with
    | nil => simp [pop_all]
    | cons x xs =>
      have hx : xs.length ≤ fuel := by simp at h; omega
      simp [pop_all, stack_pop, ih xs hx]

theorem save_state_checked_eq (stack : List ℚ) (s : Session) :
    save_state_checked stack s = some (save_state stack s) := by
  simp [save_state_checked, pop_all_spec _ _ (le_refl _), save_state]

theorem binary_result_eq (H : Host) (token : String) (a b : ℚ) (rest : List ℚ)
    (s : Session) :
    binary_branch H token (b :: a :: rest) s = binary_result H token a b rest s := rfl

theorem function_result_eq (H : Host) (token : String) (a : ℚ) (rest : List ℚ)
    (s : Session) :
    function_branch H token (a :: rest) s = function_result H token a rest s := rfl

theorem factorial_result_eq (a : ℚ) (rest : List ℚ) (s : Session) (token : String)
    (H : Host) (h : token = "!") (h1 : ¬ token = "~") (h2 : ¬ token = "++")
    (h3 : ¬ token = "--") :
    operator_branch H token (a :: rest) s = factorial_result a rest s := by
  unfold operator_branch factorial_result
  rw [if_neg h1, if_neg h2, if_neg h3, if_pos h]

theorem operator_branch_checked_eq (H : Host) (token : String) (stack : List ℚ)
    (s : Session) :
    operator_branch_checked H token stack s = some (operator_branch H token stack s) := by
  by_cases h1 : token = "~"
  · unfold operator_branch_checked operator_branch
    rw [if_pos h1, if_pos h1]
    cases stack <;> simp [stack_top, stack_pop]
  by_cases h2 : token = "++"
  · unfold operator_branch_checked operator_branch
    rw [if_neg h1, if_neg h1, if_pos h2, if_pos h2]
    cases stack <;> simp [stack_top, stack_pop]
  by_cases h3 : token = "--"
  · unfold operator_branch_checked operator_branch
    rw [if_neg h1, if_neg h1, if_neg h2, if_neg h2, if_pos h3, if_pos h3]
    cases stack <;> simp [stack_top, stack_pop]
  by_cases h4 : token = "!"
  · cases stack with
    | nil =>
      unfold operator_branch_checked operator_branch
      rw [if_neg h1, if_neg h1, if_neg h2, if_neg h2, if_neg h3, if_neg h3, if_pos h4,
        if_pos h4]
      simp
    | cons a rest =>
      rw [factorial_result_eq a rest s token H h4 h1 h2 h3]
      unfold operator_branch_checked
      rw [if_neg h1, if_neg h2, if_neg h3, if_pos h4]
      simp [stack_top, stack_pop]
  unfold operator_branch_checked operator_branch
  rw [if_neg h1, if_neg h1, if_neg h2, if_neg h2, if_neg h3, if_neg h3, if_neg h4, if_neg h4]
  by_cases h5 : token = "+" ∨ token = "-" ∨ token = "*" ∨ token = "/" ∨ token = "^"
      ∨ token = "%" ∨ token = "min" ∨ token = "max" ∨ token = "==" ∨ token = "!="
      ∨ token = "<" ∨ token = ">" ∨ token = "<=" ∨ token = ">="
  · rw [if_pos h5, if_pos h5]
    match stack with
    | [] => simp [binary_branch]
    | [x] => simp [binary_branch]
    | b :: a :: rest =>
      rw [binary_result_eq]
      simp [stack_top, stack_pop]
  rw [if_neg h5, if_neg h5]
  by_cases h6 : token = "sqrt" ∨ token = "abs" ∨ token = "sin" ∨ token = "cos"
      ∨ token = "tan" ∨ token = "asin" ∨ token = "acos" ∨ token = "atan"
      ∨ token = "ln" ∨ token = "log" ∨ token = "floor" ∨ token = "ceil"
      ∨ token = "round" ∨ token = "bin" ∨ token = "hex"
  · rw [if_pos h6, if_pos h6]
    cases stack with
    | nil => simp [function_branch]
    | cons a rest =>
      rw [function_result_eq]
      simp [stack_top, stack_pop]
  rw [if_neg h6, if_neg h6]
  by_cases h7 : token = "stack"
  · rw [if_pos h7, if_pos h7]
  rw [if_neg h7, if_neg h7]
  by_cases h8 : token = "vars"
  · rw [if_pos h8, if_pos h8]
  rw [if_neg h8, if_neg h8]
  by_cases h9 : token = "history"
  · rw [if_pos h9, if_pos h9]
  rw [if_neg h9, if_neg h9]

/-- One token with explicit `top()` and `pop()` never reaches an empty
container, and does what `step` does. -/
theorem step_checked_eq (H : Host) (token : String) (stack : List ℚ) (s : Session) :
    step_checked H token stack s = some (step H token stack s) := by
  unfold step_checked step
  by_cases h1 : is_number token = true
  · rw [if_pos h1, if_pos h1]
    cases stod token <;> rfl
  rw [if_neg h1, if_neg h1]
  by_cases h2 : token = "pi"
  · rw [if_pos h2, if_pos h2]
  rw [if_neg h2, if_neg h2]
  by_cases h3 : token = "e"
  · rw [if_pos h3, if_pos h3]
  rw [if_neg h3, if_neg h3]
  by_cases h4 : (s.vars token).isSome = true
  · rw [if_pos h4, if_pos h4]
  rw [if_neg h4, if_neg h4]
  by_cases h5 : token = "store" ∨ token = ">"
  · rw [if_pos h5, if_pos h5]
    match stack with
    | [] => simp
    | [x] => simp
    | value :: key :: rest =>
      cases hc : static_cast_int key <;> simp [stack_top, stack_pop, hc]
  rw [if_neg h5, if_neg h5]
  by_cases h6 : token = "recall" ∨ token = "<"
  · rw [if_pos h6, if_pos h6]
    cases stack with
    | nil => simp
    | cons key rest =>
      cases hc : static_cast_int key with
      | none => simp [stack_top, stack_pop, hc]
      | some n =>
        by_cases hv : (s.vars (to_string n)).isSome = true
        · simp [stack_top, stack_pop, hc, hv]
        · simp [stack_top, stack_pop, hc, hv]
  rw [if_neg h6, if_neg h6]
  by_cases h7 : token = "rand"
  · rw [if_pos h7, if_pos h7]
  rw [if_neg h7, if_neg h7]
  by_cases h8 : token = "dup"
  · rw [if_pos h8, if_pos h8]
    cases stack <;> simp [stack_top]
  rw [if_neg h8, if_neg h8]
  by_cases h9 : token = "swap"
  · rw [if_pos h9, if_pos h9]
    match stack with
    | [] => simp
    | [x] => simp
    | a :: b :: rest => simp [stack_top, stack_pop]
  rw [if_neg h9, if_neg h9]
  by_cases h10 : token = "drop"
  · rw [if_pos h10, if_pos h10]
    cases stack <;> simp [stack_pop]
  rw [if_neg h10, if_neg h10]
  by_cases h11 : token = "clear"
  · rw [if_pos h11, if_pos h11]
    simp [pop_all_spec _ _ (le_refl _)]
  rw [if_neg h11, if_neg h11]
  by_cases h12 : token = "undo"
  · rw [if_pos h12, if_pos h12]
    cases hu : s.undo_stack <;> simp [stack_top, stack_pop]
  rw [if_neg h12, if_neg h12]
  by_cases h13 : token = "redo"
  · rw [if_pos h13, if_pos h13]
    cases hu : s.redo_stack <;> simp [stack_top, stack_pop]
  rw [if_neg h13, if_neg h13]
  exact operator_branch_checked_eq H token stack s

theorem run_tokens_checked_eq (H : Host) (tokens : List String) :
    ∀ (stack : List ℚ) (s : Session),
      run_tokens_checked H tokens stack s = some (run_tokens H tokens stack s) := by
  induction tokens with
  | nil => intro stack s; rfl
  | cons token rest ih =>
    intro stack s
    simp only [run_tokens_checked, run_tokens, step_checked_eq]
    rcases step H token stack s with ⟨r, s1⟩
    cases r with
    | error f => rfl
    | ok stack1 => exact ih stack1 s1

theorem finish_checked_eq (tokens : List String) (stack : List ℚ) :
    finish_checked tokens stack = some (finish tokens stack) := by
  unfold finish_checked finish
  by_cases h : too_many_operands tokens stack = true
  · rw [if_pos h, if_pos h]
  · rw [if_neg h, if_neg h]
    cases stack <;> simp [stack_top]

/-- C18. No operation reads or pops an empty container: for every session and
every input text, the evaluator written with `top()` and `pop()` that give
`none` on an empty value stack, undo log or redo log never takes that branch
(each operator checks its arity first and throws instead), and it computes what
`evaluate_rpn` computes. -/
theorem no_empty_top_or_pop (H : Host) (s : Session) (expression : String) :
    evaluate_rpn_checked H s expression = some (evaluate_rpn H s expression)
    ∧ evaluate_rpn_checked H s expression ≠ none
    ∧ (∀ (token : String) (stack : List ℚ) (s1 : Session),
        step_checked H token stack s1 = some (step H token stack s1)) := by
  have h : evaluate_rpn_checked H s expression = some (evaluate_rpn H s expression) := by
    unfold evaluate_rpn_checked
    simp only [save_state_checked_eq, run_tokens_checked_eq]
    rw [evaluate_rpn_of_tokens H s expression _ rfl]
    rcases run_tokens H (tokenize expression) [] (save_state [] s) with ⟨r, s1⟩
    cases r with
    | error f => rfl
    | ok stack => simp [finish_checked_eq]
  refine ⟨h, ?_, step_checked_eq H⟩
  rw [h]
  simp

/-! ## Operators in the sessions the evaluator builds -/

/-- In a store whose keys are renderings of `int`s, a token that is not a
number is not a variable. -/
theorem int_keys_not_variable (s : Session)
    (hkeys : ∀ k, (s.vars k).isSome = true → IntKey k) (name : String)
    (hname : is_number name = false) : s.vars name = none := by
  cases hs : s.vars name with
  | none => rfl
  | some v =>
    have := int_key_is_number name (hkeys name (by rw [hs]; rfl))
    rw [hname] at this
    exact absurd this (by decide)

/-- C6. Division by zero is an error: for every session the process can be in
and every token sequence in which the token `/` is reached without an earlier
error while the stack has at least two elements `b :: a :: rest`, if the top
`b` is 0 then `evaluate_rpn` throws "Division by zero", and if `b` is not 0 the
token pushes `a / b` instead. -/
theorem division_by_zero (H : Host) (s s1 : Session) (hr : Reachable H s)
    (expression : String) (before after : List String) (a b : ℚ) (rest : List ℚ)
    (ht : tokenize expression = before ++ "/" :: after)
    (hrun : run_tokens H before [] (save_state [] s) = (.ok (b :: a :: rest), s1)) :
    (b = 0 → (evaluate_rpn H s expression).1
        = .error (.invalid_argument "Division by zero"))
    ∧ (b ≠ 0 → step H "/" (b :: a :: rest) s1
        = (.ok (a / b :: rest), add_to_history "/" s1)) := by
  have hinv := run_tokens_invariant H (fun s => ∀ k, (s.vars k).isSome = true → IntKey k)
    (fun token stack s h => step_int_keys H token stack s h) before [] (save_state [] s)
    (reachable_int_keys H s hr)
  rw [hrun] at hinv
  have hvar : s1.vars "/" = none := int_keys_not_variable s1 hinv "/" (by decide)
  have h := divide_at_token H s s1 expression before after a b rest ht hrun hvar
  exact ⟨fun hb => by rw [h.1 hb], h.2⟩

/-- C6 on `2 0 /`, in a fresh session and after an earlier call: "Division by
zero". -/
theorem division_by_zero_witness :
    (evaluate_rpn Host.sample Session.fresh "2 0 /").1
        = .error (.invalid_argument "Division by zero")
    ∧ (evaluate_rpn Host.sample (evaluate_rpn Host.sample Session.fresh "7 2 store").2
        "2 0 /").1 = .error (.invalid_argument "Division by zero") := by
  have t : tokenize "2 0 /" = [to_string 2, to_string 0] ++ "/" :: [] := by decide
  have hrun : ∀ s : Session, run_tokens Host.sample [to_string 2, to_string 0] []
      (save_state [] s)
      = (.ok ((0 : ℚ) :: 2 :: []), add_to_history ("push " ++ to_string 0)
          (add_to_history ("push " ++ to_string 2) (save_state [] s))) := by
    intro s
    simp only [run_tokens, step_push_int]
    norm_num
  exact ⟨(division_by_zero Host.sample Session.fresh _ Reachable.fresh "2 0 /" _ [] 2 0 [] t
      (hrun _)).1 rfl,
    (division_by_zero Host.sample _ _ (Reachable.call Session.fresh "7 2 store"
      Reachable.fresh) "2 0 /" _ [] 2 0 [] t (hrun _)).1 rfl⟩

/-- C16. `redo` undoes `undo` within one evaluation: for every value stack `S`,
every non-empty undo log `U = saved :: older` and every redo log `R`, in a
session whose variables are those the evaluator creates (every key the
rendering of an `int`, as in every reachable session), the token `undo` puts
`S` on the redo log and makes the top `saved` of `U` the stack, and the token
`redo` right after it succeeds and ends with the stack `S`, the undo log `U`
and the redo log `R`. -/
theorem undo_then_redo (H : Host) (S saved : List ℚ) (older : List (List ℚ)) (s : Session)
    (hkeys : ∀ k, (s.vars k).isSome = true → IntKey k)
    (hu : s.undo_stack = saved :: older) :
    (step H "undo" S s).1 = .ok saved
    ∧ (step H "undo" S s).2.redo_stack = S :: s.redo_stack
    ∧ (step H "undo" S s).2.undo_stack = older
    ∧ (run_tokens H ["undo", "redo"] S s).1 = .ok S
    ∧ (run_tokens H ["undo", "redo"] S s).2.undo_stack = s.undo_stack
    ∧ (run_tokens H ["undo", "redo"] S s).2.redo_stack = s.redo_stack
    ∧ (run_tokens H ["undo", "redo"] S s).2.vars = s.vars :=
  undo_redo_tokens H S saved older s (int_keys_not_variable s hkeys "undo" (by decide))
    (int_keys_not_variable s hkeys "redo" (by decide)) hu

/-- C16 on the stack `[5]`: with the undo log `[[7]]` in a session without
variable, and in the middle of a call after `7 2 store` (the undo log holds the
snapshot of that call and of this one). -/
theorem undo_then_redo_witness :
    (run_tokens Host.sample ["undo", "redo"] [5]
      { Session.fresh with undo_stack := [[7]] }).1 = .ok [5]
    ∧ (run_tokens Host.sample ["undo", "redo"] [5]
        (save_state [] (evaluate_rpn Host.sample Session.fresh "7 2 store").2)).1
          = .ok [5] :=
  ⟨(undo_then_redo Host.sample [5] [7] [] { Session.fresh with undo_stack := [[7]] }
      (by intro k hk; simp [Session.fresh] at hk) rfl).2.2.2.1,
   (undo_then_redo Host.sample [5] [] _
      (save_state [] (evaluate_rpn Host.sample Session.fresh "7 2 store").2)
      (fun k hk => reachable_int_keys Host.sample
        (evaluate_rpn Host.sample Session.fresh "7 2 store").2
        (Reachable.call Session.fresh "7 2 store" Reachable.fresh) k hk) rfl).2.2.2.1⟩

/-! ## Store and recall with the range of a `double` -/

theorem stod_double_ok (H : Host) (text : String) (v : ℚ)
    (h : stod_double H text = .ok v) : stod text = .ok v := by
  unfold stod_double at h
  cases hs : stod text with
  | error f => rw [hs] at h; simp at h
  | ok w =>
    rw [hs] at h
    simp only at h
    split_ifs at h
    simp only [Except.ok.injEq] at h
    rw [h]

theorem step_double_number (H : Host) (token : String) (v : ℚ) (stack : List ℚ)
    (s : Session) (h1 : is_number token = true) (h2 : stod_double H token = .ok v) :
    step_double H token stack s
      = (.ok (v :: stack), add_to_history ("push " ++ token) s) := by
  simp [step_double, h1, h2]

theorem step_double_other (H : Host) (token : String) (stack : List ℚ) (s : Session)
    (h : is_number token = false) : step_double H token stack s = step H token stack s := by
  simp [step_double, h]

theorem evaluate_rpn_double_of_tokens (H : Host) (s : Session) (expression : String)
    (tokens : List String) (ht : tokenize expression = tokens) :
    evaluate_rpn_double H s expression =
      match run_tokens_double H tokens [] (save_state [] s) with
      | (.error f, s1) => (.error f, s1)
      | (.ok stack, s1) => (finish tokens stack, s1) := by
  subst ht; rfl

/-- With the range of a `double` too, every token keeps the keys of the
variable store renderings of `int`s. -/
theorem step_double_int_keys (H : Host) (token : String) (stack : List ℚ) (s : Session)
    (h : ∀ k, (s.vars k).isSome = true → IntKey k) :
    ∀ k, ((step_double H token stack s).2.vars k).isSome = true → IntKey k := by
  unfold step_double
  by_cases hn : is_number token = true
  · rw [if_pos hn]
    cases stod_double H token with
    | error f => exact h
    | ok v => exact h
  · rw [if_neg hn]
    exact step_int_keys H token stack s h

theorem run_tokens_double_int_keys (H : Host) (tokens : List String) :
    ∀ (stack : List ℚ) (s : Session), (∀ k, (s.vars k).isSome = true → IntKey k) →
      ∀ k, ((run_tokens_double H tokens stack s).2.vars k).isSome = true → IntKey k := by
  induction tokens with
  | nil => intro stack s h; exact h
  | cons token rest ih =>
    intro stack s h
    have h1 := step_double_int_keys H token stack s h
    simp only [run_tokens_double]
    rcases hs : step_double H token stack s with ⟨r, s1⟩
    rw [hs] at h1
    cases r with
    | error f => exact h1
    | ok stack1 => exact ih stack1 s1 h1

/-- A call of the evaluator with the range of a `double` keeps the keys of the
variable store renderings of `int`s. -/
theorem evaluate_rpn_double_int_keys (H : Host) (s : Session) (expression : String)
    (h : ∀ k, (s.vars k).isSome = true → IntKey k) :
    ∀ k, ((evaluate_rpn_double H s expression).2.vars k).isSome = true → IntKey k := by
  have h1 := run_tokens_double_int_keys H (tokenize expression) [] (save_state [] s) h
  rw [evaluate_rpn_double_of_tokens H s expression _ rfl]
  rcases hs : run_tokens_double H (tokenize expression) [] (save_state [] s) with ⟨r, s1⟩
  rw [hs] at h1
  cases r with
  | error f => exact h1
  | ok stack => exact h1

/-- On a token that is no numeral, or a numeral within range, the evaluator
with the range of a `double` takes the step of `evaluate_rpn`. -/
theorem step_double_eq_step (H : Host) (token : String) (stack : List ℚ) (s : Session)
    (h : is_number token = true → ∃ v, stod_double H token = .ok v) :
    step_double H token stack s = step H token stack s := by
  by_cases hn : is_number token = true
  · obtain ⟨v, hv⟩ := h hn
    rw [step_double_number H token v stack s hn hv,
      step_number H token v stack s hn (stod_double_ok H token v hv)]
  · rw [Bool.not_eq_true] at hn
    exact step_double_other H token stack s hn

theorem run_tokens_double_eq (H : Host) (tokens : List String)
    (h : ∀ token ∈ tokens, is_number token = true → ∃ v, stod_double H token = .ok v) :
    ∀ (stack : List ℚ) (s : Session),
      run_tokens_double H tokens stack s = run_tokens H tokens stack s := by
  induction tokens with
  | nil => intro stack s; rfl
  | cons token rest ih =>
    intro stack s
    simp only [run_tokens_double, run_tokens,
      step_double_eq_step H token stack s (h token (List.mem_cons_self _ _))]
    rcases step H token stack s with ⟨r, s1⟩
    cases r with
    | error f => rfl
    | ok stack1 => exact ih (fun t ht => h t (List.mem_cons_of_mem _ ht)) stack1 s1

/-- When every numeral of the expression is within range, the two evaluators
agree. -/
theorem evaluate_rpn_double_eq (H : Host) (s : Session) (expression : String)
    (h : ∀ token ∈ tokenize expression,
      is_number token = true → ∃ v, stod_double H token = .ok v) :
    evaluate_rpn_double H s expression = evaluate_rpn H s expression := by
  rw [evaluate_rpn_double_of_tokens H s expression _ rfl,
    evaluate_rpn_of_tokens H s expression _ rfl, run_tokens_double_eq H _ h]

end Rpn
